import Mathlib

/-!
# gameServer: the single-threaded event loop of the number-guessing server

A shallow embedding of `src/gameServer.c` (identical, up to comments and one
debug `printf`, to `src/game.c`).

Conventions of the embedding

* A socket descriptor is an `Int`; `-1` marks an empty slot, exactly as in the
  C code.  `accept` only ever yields non-negative descriptors.
* Player ids are natural numbers (the C `int id` is never negative); the
  `exclude_id` argument of `broadcast` stays an `Int` because the code passes
  `-1` for "exclude nobody".
* `clients` is the array `clients[0 .. max_players)`, as a list.
* `avail_ids` is the live part `avail_ids[0 .. avail_count)` of the free-id
  stack, bottom first; `avail_count` is its length.
* `wqueue` is the live part `wqueue[0 .. wq_size)` of a client's outbound
  queue; `wq_size` is its length.  `realloc` and `strndup` are taken to
  succeed.
* `rbuf` is the live part `rbuf[0 .. rpos)` of a client's read buffer.
* Bytes and message texts are lists of characters.  The `snprintf` buffers
  (64 and 128 bytes) are larger than the longest text any `int` can produce,
  so no truncation is modelled.
* A guess is a 32-bit `int`: the value a `%d` conversion reads is stored
  through `scan_int`.
* `rand()` is an input: every function that calls it takes the value it
  returns as an argument.
-/

namespace GameServer

/-! ## Constants and data model -/

def MAX_LINE : Nat := 1024

def INITIAL_QUEUE_SIZE : Nat := 4

def SECRET_NUM_MAX : Nat := 9999

/-- One pending outbound message: `data`, `len`, `sent`. -/
structure Message where
  data : List Char
  len : Nat
  sent : Nat
deriving DecidableEq

/-- One player slot (`Client`). -/
structure Client where
  fd : Int
  id : Nat
  rbuf : List Char
  rpos : Nat
  wqueue : List Message
  wq_cap : Nat
deriving DecidableEq

/-- The global state of the server. -/
structure State where
  max_players : Nat
  clients : List Client
  avail_ids : List Nat
  waitq : List Int
  target : Int
deriving DecidableEq

/-- Number of live entries of the free-id stack. -/
def State.avail_count (s : State) : Nat := s.avail_ids.length

/-- Number of live entries of a client's outbound queue. -/
def Client.wq_size (c : Client) : Nat := c.wqueue.length

/-- A slot as `calloc` followed by `fd = -1` leaves it. -/
def Client.blank : Client :=
  { fd := -1, id := 0, rbuf := [], rpos := 0, wqueue := [], wq_cap := 0 }

/-! ## Message texts (the `snprintf` formats) -/

def msgWelcome (id : Nat) : List Char :=
  ("Welcome to the game, your id is " ++ toString id ++ "\n").toList

def msgJoined (id : Nat) : List Char :=
  ("Player " ++ toString id ++ " joined the game\n").toList

def msgDisconnected (id : Nat) : List Char :=
  ("Player " ++ toString id ++ " disconnected\n").toList

def msgGuessed (id : Nat) (guess : Int) : List Char :=
  ("Player " ++ toString id ++ " guessed " ++ toString guess ++ "\n").toList

def msgWin (id : Nat) (guess : Int) : List Char :=
  ("Player " ++ toString id ++ " wins\nThe correct guessing is " ++ toString guess ++ "\n").toList

def msgTooHigh (guess : Int) : List Char :=
  ("The guess " ++ toString guess ++ " is too high\n").toList

def msgTooLow (guess : Int) : List Char :=
  ("The guess " ++ toString guess ++ " is too low\n").toList

/-! ## Registry operations -/

/-- The function `enqueue_message`: grow the queue when full, then append a
copy of the first `len` bytes of `msg` with `sent = 0`. -/
def enqueue_message (c : Client) (msg : List Char) (len : Nat) : Client :=
  let new_cap :=
    if c.wq_size ≥ c.wq_cap then
      (if c.wq_cap ≠ 0 then c.wq_cap * 2 else INITIAL_QUEUE_SIZE)
    else c.wq_cap
  { c with wqueue := c.wqueue ++ [{ data := msg.take len, len := len, sent := 0 }],
           wq_cap := new_cap }

/-- The function `broadcast`: enqueue `msg` on every slot that is in use and
whose id differs from `exclude_id`. -/
def broadcast (s : State) (msg : List Char) (exclude_id : Int) : State :=
  { s with clients := s.clients.map (fun c =>
      if c.fd ≠ -1 ∧ (c.id : Int) ≠ exclude_id then enqueue_message c msg msg.length else c) }

/-- Assignment to `clients[slot]`: the slot is replaced by `f` of its old
content. -/
def updateClient (cs : List Client) (slot : Nat) (f : Client → Client) : List Client :=
  match cs[slot]? with
  | some c => cs.set slot (f c)
  | none => cs

/-- The function `reset_game`; `r` is the value returned by `rand()`. -/
def reset_game (s : State) (r : Nat) : State :=
  { s with
    clients := s.clients.map (fun c =>
      if c.fd ≠ -1 then { c with fd := -1, wqueue := [], wq_cap := 0 } else c)
    avail_ids := (List.range s.max_players).map (fun i => i + 1)
    target := ((r % SECRET_NUM_MAX : Nat) : Int) + 1 }

/-- One iteration of the `while` loop of `promote_waiting`, entered with the
first waiting descriptor `new_fd`, the remaining queue `rest` and the id `id`
on top of the free-id stack. -/
def promote_body (s : State) (new_fd : Int) (rest : List Int) (id : Nat) : State :=
  let slot := id - 1
  let s1 : State :=
    { s with
      waitq := rest
      avail_ids := s.avail_ids.dropLast
      clients := updateClient s.clients slot (fun c =>
        enqueue_message
          { c with fd := new_fd, id := id, rpos := 0, rbuf := [], wqueue := [], wq_cap := 0 }
          (msgWelcome id) (msgWelcome id).length) }
  broadcast s1 (msgJoined id) id

/-- The `while (avail_count > 0 && waitq.count > 0)` loop of
`promote_waiting`, with a bound on the number of iterations. -/
def promote_loop : Nat → State → State
  | 0, s => s
  | fuel + 1, s =>
    match s.avail_ids.getLast?, s.waitq with
    | some id, new_fd :: rest => promote_loop fuel (promote_body s new_fd rest id)
    | _, _ => s

/-- The function `promote_waiting`.  Every iteration removes one waiting
descriptor, so `waitq.count` iterations are enough (see
`promote_waiting_exit`). -/
def promote_waiting (s : State) : State :=
  promote_loop s.waitq.length s

/-- The part of `handle_disconnect` that precedes the call of
`promote_waiting`: notice to the others, slot emptied, id pushed on the
free-id stack, outbound queue dropped. -/
def release_slot (s : State) (idx : Nat) : State :=
  match s.clients[idx]? with
  | none => s
  | some c =>
    let s1 := broadcast s (msgDisconnected c.id) c.id
    { s1 with
      clients := updateClient s1.clients idx (fun c1 =>
        { c1 with fd := -1, wqueue := [], wq_cap := 0 })
      avail_ids := s1.avail_ids ++ [c.id] }

/-- The function `handle_disconnect`. -/
def handle_disconnect (s : State) (idx : Nat) : State :=
  promote_waiting (release_slot s idx)

/-- The accept path of `main` for a successfully accepted descriptor
`new_fd`. -/
def accept_connection (s : State) (new_fd : Int) : State :=
  match s.avail_ids.getLast? with
  | some id =>
    let slot := id - 1
    let s1 : State :=
      { s with
        avail_ids := s.avail_ids.dropLast
        clients := updateClient s.clients slot (fun c =>
          enqueue_message { c with fd := new_fd, id := id, rpos := 0, rbuf := [] }
            (msgWelcome id) (msgWelcome id).length) }
    broadcast s1 (msgJoined id) id
  | none => { s with waitq := s.waitq ++ [new_fd] }

/-- The registry as `main` sets it up; `r` is the first value of `rand()`. -/
def init (max_players : Nat) (r : Nat) : State :=
  { max_players := max_players
    clients := List.replicate max_players Client.blank
    avail_ids := (List.range max_players).map (fun i => i + 1)
    waitq := []
    target := ((r % SECRET_NUM_MAX : Nat) : Int) + 1 }

/-! ## The line decoder of the read path -/

/-- The string terminator. -/
def NUL : Char := Char.ofNat 0

/-- The line delimiter handed to `strsep`. -/
def NL : Char := Char.ofNat 10

/-- C `isspace` in the "C" locale: space, `\t`, `\n`, `\v`, `\f`, `\r`. -/
def isspace (c : Char) : Bool :=
  c.toNat = 32 || (9 ≤ c.toNat && c.toNat ≤ 13)

/-- C `isdigit`. -/
def isdigit (c : Char) : Bool :=
  48 ≤ c.toNat && c.toNat ≤ 57

/-- Value of a run of decimal digits. -/
def digitsValue (ds : List Char) : Nat :=
  ds.foldl (fun acc d => 10 * acc + (d.toNat - 48)) 0

/-- Bounds of `int` (32 bits) and of `long` (64 bits). -/
def INT_MIN : Int := -2147483648

def INT_MAX : Int := 2147483647

def LONG_MIN : Int := -9223372036854775808

def LONG_MAX : Int := 9223372036854775807

/-- What `strtol` makes of the value of a digit string: the value itself, or
`LONG_MIN` / `LONG_MAX` when it does not fit a `long`. -/
def strtol_clamp (v : Int) : Int :=
  if v < LONG_MIN then LONG_MIN else if v > LONG_MAX then LONG_MAX else v

/-- Conversion of a `long` to `int`: the low 32 bits, read in two's
complement. -/
def to_int (v : Int) : Int :=
  (v + 2147483648) % 4294967296 - 2147483648

/-- The `int` that a `%d` conversion stores for digits of value `v`: the C
library converts with `strtol` and assigns the `long` to the `int`.  It is `v`
when `v` fits an `int` (see `scan_int_of_range`); C itself leaves the other
case undefined, the value here is the one glibc gives on a 64-bit `long`
(4294967338 is stored as 42, 2147483648 as -2147483648). -/
def scan_int (v : Int) : Int :=
  to_int (strtol_clamp v)

/-- The call `sscanf(line, "%d", &guess)`: `some guess` when it returns 1,
`none` otherwise.  The directive skips white space, takes an optional sign and
then the longest run of decimal digits, which must not be empty; what follows
the digits is left unread.  The value of sign and digits is stored in the
32-bit `int guess` (`scan_int`). -/
def sscanf_d (line : List Char) : Option Int :=
  let s := line.dropWhile isspace
  let neg : Bool := s.head? = some (Char.ofNat 45)
  let t := if s.head? = some (Char.ofNat 45) ∨ s.head? = some (Char.ofNat 43) then s.tail else s
  let ds := t.takeWhile isdigit
  if ds.length = 0 then none
  else some (scan_int (if neg then -((digitsValue ds : Nat) : Int)
                       else ((digitsValue ds : Nat) : Int)))

/-- One call `strsep(&ptr, "\n")` with `ptr` not `NULL`.  The argument is the
content of the buffer from `ptr` up to `rbuf + rpos` (a terminator follows).
The result is the token returned and the new value of `ptr`: the bytes after
the delimiter, or `none` (`NULL`) when the string held no delimiter. -/
def strsep : List Char → List Char × Option (List Char)
  | [] => ([], none)
  | c :: cs =>
    if c = NUL then ([], none)
    else if c = NL then ([], some cs)
    else (c :: (strsep cs).1, (strsep cs).2)

/-- The results of the successive calls `strsep(&ptr, "\n")` that start at the
given buffer content and go on until `ptr` is `NULL`
(see `strsepAll_eq_strsep`). -/
def strsepAll : List Char → List (List Char × Option (List Char))
  | [] => [([], none)]
  | c :: cs =>
    if c = NUL then [([], none)]
    else if c = NL then ([], some cs) :: strsepAll cs
    else
      match strsepAll cs with
      | (t, p) :: more => (c :: t, p) :: more
      | [] => [([c], none)]

/-- The slot `clients[i]`. -/
def State.clientAt (s : State) (i : Nat) : Client :=
  s.clients.getD i Client.blank

/-- What the read path hands back: the new state, the texts written with a
direct `send` (descriptor and text, in order), and the value of `ptr` when the
line loop is left. -/
structure ReadResult where
  state : State
  sent : List (Int × List Char)
  ptr : Option (List Char)
deriving DecidableEq

/-- The loop `for j < max_players: if (clients[j].fd != -1) send(clients[j].fd, win, ...)`. -/
def win_sends (s : State) (win : List Char) : List (Int × List Char) :=
  (s.clients.filter (fun c => c.fd ≠ -1)).map (fun c => (c.fd, win))

/-- The guess notice of the read path: `broadcast(msg, -1)` with the text
`Player <id> guessed <guess>`, where `<id>` is `clients[i].id`. -/
def guess_notice (s : State) (i : Nat) (guess : Int) : State :=
  broadcast s (msgGuessed (s.clientAt i).id guess) (-1)

/-- The `else` branch of `if (guess == target)`: the feedback text is enqueued
on `clients[i]`. -/
def enqueue_feedback (s : State) (i : Nat) (guess : Int) : State :=
  let feedback := if guess > s.target then msgTooHigh guess else msgTooLow guess
  { s with clients := updateClient s.clients i (fun c =>
      enqueue_message c feedback feedback.length) }

/-- The loop `while ((line = strsep(&ptr, "\n")) != NULL)` of the read path of
`clients[i]`, run over the successive results of `strsep`; `r` is what `rand()`
returns if `reset_game` is reached. -/
def decode_loop (i : Nat) (r : Nat) : State → List (List Char × Option (List Char)) → ReadResult
  | s, [] => { state := s, sent := [], ptr := none }
  | s, (line, ptr) :: more =>
    if line.length = 0 then decode_loop i r s more
    else
      match sscanf_d line with
      | none => decode_loop i r s more
      | some guess =>
        let s1 := guess_notice s i guess
        if guess = s1.target then
          { state := reset_game s1 r
            sent := win_sends s1 (msgWin (s1.clientAt i).id guess)
            ptr := ptr }
        else decode_loop i r (enqueue_feedback s1 i guess) more

/-- The read path of `main` for `clients[i]` when `recv` delivered `bytes`
(`n = bytes.length > 0`). -/
def read_handling (s : State) (i : Nat) (bytes : List Char) (r : Nat) :
    State × List (Int × List Char) :=
  let raw := (s.clientAt i).rbuf.take (s.clientAt i).rpos ++ bytes
  let s0 : State :=
    { s with clients := updateClient s.clients i (fun c =>
        { c with rbuf := raw, rpos := c.rpos + bytes.length }) }
  let res := decode_loop i r s0 (strsepAll raw)
  let compact : Client → Client := fun c =>
    match res.ptr with
    | some rest =>
      let remaining := c.rpos - (raw.length - rest.length)
      { c with rbuf := rest.take remaining, rpos := remaining }
    | none => { c with rbuf := [], rpos := 0 }
  ({ res.state with clients := updateClient res.state.clients i compact }, res.sent)

/-- The write path of `main` for `clients[i]` when `send` accepted `k` bytes of
the front message. -/
def write_handling (s : State) (i : Nat) (k : Nat) : State :=
  { s with clients := updateClient s.clients i (fun c =>
      match c.wqueue with
      | [] => c
      | msg :: rest =>
        if msg.sent + k = msg.len then { c with wqueue := rest }
        else { c with wqueue := { msg with sent := msg.sent + k } :: rest }) }

/-- The waiting-queue check of `main` when the peek on `waitq.fds[j]` reports
closure. -/
def drop_waiting (s : State) (j : Nat) : State :=
  { s with waitq := s.waitq.eraseIdx j }

/-! ## Events of the main loop and reachable states -/

/-- What one pass of the main loop can do to the state. -/
inductive Event where
  | accept (new_fd : Int)
  | recvClosed (i : Nat)
  | recvData (i : Nat) (bytes : List Char) (r : Nat)
  | sendOk (i : Nat) (k : Nat)
  | sendFailed (i : Nat)
  | waitClosed (j : Nat)
deriving DecidableEq

/-- The guards under which `main` reaches the code of an event. -/
def Event.enabled (s : State) : Event → Prop
  | .accept new_fd => 0 ≤ new_fd
  | .recvClosed i => i < s.max_players ∧ (s.clientAt i).fd ≠ -1
  | .recvData i bytes _ =>
      i < s.max_players ∧ (s.clientAt i).fd ≠ -1 ∧
      0 < bytes.length ∧ bytes.length ≤ MAX_LINE - (s.clientAt i).rpos
  | .sendOk i k =>
      i < s.max_players ∧ (s.clientAt i).fd ≠ -1 ∧
      ∃ msg ∈ (s.clientAt i).wqueue.head?, k ≤ msg.len - msg.sent
  | .sendFailed i =>
      i < s.max_players ∧ (s.clientAt i).fd ≠ -1 ∧ 0 < (s.clientAt i).wq_size
  | .waitClosed j => j < s.waitq.length

instance (s : State) (e : Event) : Decidable (e.enabled s) := by
  cases e <;> unfold Event.enabled <;> infer_instance

/-- The state after an event. -/
def step (s : State) : Event → State
  | .accept new_fd => accept_connection s new_fd
  | .recvClosed i => handle_disconnect s i
  | .recvData i bytes r => (read_handling s i bytes r).1
  | .sendOk i k => write_handling s i k
  | .sendFailed i => handle_disconnect s i
  | .waitClosed j => drop_waiting s j

/-- States the server can be in between two events, from start-up with a
validated `max_players`. -/
inductive Reachable : State → Prop where
  | start (max_players r : Nat) (h : 1 < max_players) : Reachable (init max_players r)
  | next (s : State) (e : Event) (hs : Reachable s) (he : e.enabled s) : Reachable (step s e)

/-! ## Invariants, auxiliary notions and the concrete runs used in the statements -/

/-- Slot `j` holds a live connection. -/
def State.active (s : State) (j : Nat) : Prop := (s.clientAt j).fd ≠ -1

instance (s : State) (j : Nat) : Decidable (s.active j) := by
  unfold State.active; infer_instance

/-- Number of slots in use, counted as the loops of the code do:
`for i < max_players: if (clients[i].fd != -1)`. -/
def State.activeCount (s : State) : Nat :=
  ((List.range s.max_players).filter (fun j => decide (s.active j))).length

/-- What holds of the registry between any two steps of the server. -/
structure Inv (s : State) : Prop where
  len : s.clients.length = s.max_players
  nodup : s.avail_ids.Nodup
  free_iff : ∀ id, id ∈ s.avail_ids ↔
    (1 ≤ id ∧ id ≤ s.max_players ∧ (s.clientAt (id - 1)).fd = -1)
  ids : ∀ j, j < s.max_players → (s.clientAt j).fd ≠ -1 → (s.clientAt j).id = j + 1
  idle : ∀ j, (s.clientAt j).fd = -1 → (s.clientAt j).wqueue = []
  fds : ∀ j, -1 ≤ (s.clientAt j).fd
  waiting : ∀ fd ∈ s.waitq, 0 ≤ fd
  target_range : 1 ≤ s.target ∧ s.target ≤ 9999

/-- Every slot in use has an empty read buffer between two events. -/
def Fresh (s : State) : Prop :=
  ∀ j, (s.clientAt j).fd ≠ -1 → (s.clientAt j).rpos = 0 ∧ (s.clientAt j).rbuf = []

/-- Every slot in use other than `i` has an empty read buffer: what holds
while the read path of `clients[i]` runs. -/
def FreshExcept (i : Nat) (s : State) : Prop :=
  ∀ j, j ≠ i → (s.clientAt j).fd ≠ -1 → (s.clientAt j).rpos = 0 ∧ (s.clientAt j).rbuf = []

/-- Two players allowed, both slots taken by descriptors 5 and 6. -/
def fullHouse : State :=
  step (step (init 2 41) (.accept 5)) (.accept 6)

/-- The state `fullHouse` with descriptors 7 and 8 waiting. -/
def fullHouseWaiting : State :=
  step (step fullHouse (.accept 7)) (.accept 8)

/-- State of the registry after the descriptors `fds` were accepted in a row
from start-up: the free ids are `1 .. N - |fds|`, the slots below `N - |fds|`
are untouched, and the `k`-th accepted descriptor (from 0) sits in slot
`N - 1 - k` with id `N - k` and its welcome text first in its queue. -/
structure AcceptedInOrder (N : Nat) (fds : List Int) (s : State) : Prop where
  len : s.clients.length = N
  avail : s.avail_ids = (List.range (N - fds.length)).map (fun i => i + 1)
  untouched : ∀ j, j < N - fds.length → s.clientAt j = Client.blank
  placed : ∀ k, k < fds.length →
    some (s.clientAt (N - 1 - k)).fd = fds[k]? ∧ (s.clientAt (N - 1 - k)).id = N - k ∧
    (s.clientAt (N - 1 - k)).wqueue.head? =
      some { data := msgWelcome (N - k), len := (msgWelcome (N - k)).length, sent := 0 }

/-- One of two seats taken: descriptor 5 holds id 2, id 1 is free. -/
def onePlayer : State :=
  step (init 2 41) (.accept 5)

/-- The feedback text the code chooses for a guess that is not the target. -/
def feedbackText (target guess : Int) : List Char :=
  if guess > target then msgTooHigh guess else msgTooLow guess

/-- The sign character `-` of a `%d` conversion. -/
def MINUS : Char := Char.ofNat 45

/-- The sign character `+` of a `%d` conversion. -/
def PLUS : Char := Char.ofNat 43

/-- The line is white space `ws`, an optional sign, a non-empty run of digits
`ds` that stops at the end of the line or at a non-digit, and then anything;
`v` is the `int` stored for the value of sign and digits. -/
def IntegerPrefix (line : List Char) (v : Int) : Prop :=
  ∃ ws sign ds rest, line = ws ++ (sign ++ (ds ++ rest)) ∧
    (∀ c ∈ ws, isspace c = true) ∧ (sign = [] ∨ sign = [PLUS] ∨ sign = [MINUS]) ∧
    ds ≠ [] ∧ (∀ c ∈ ds, isdigit c = true) ∧ (∀ c ∈ rest.head?, isdigit c = false) ∧
    v = scan_int (if sign = [MINUS] then -((digitsValue ds : Nat) : Int)
                  else ((digitsValue ds : Nat) : Int))

/-- The guess a token of the line loop is evaluated as, if any: the two
`continue` tests (`strlen(line) == 0`, `sscanf(...) != 1`) in one. -/
def parsedGuess (line : List Char) : Option Int :=
  if line.length = 0 then none else sscanf_d line

/-- The evaluation of a guess that is not the target: notice, then feedback. -/
def eval_guess (i : Nat) (s : State) (guess : Int) : State :=
  enqueue_feedback (guess_notice s i guess) i guess

/-- The result of the line loop when `guess`, made on slot `i`, is the target:
notice, direct sends of the win text, `reset_game`, `break` with `ptr`. -/
def win_result (i r : Nat) (s : State) (guess : Int) (ptr : Option (List Char)) : ReadResult :=
  { state := reset_game (guess_notice s i guess) r
    sent := win_sends (guess_notice s i guess) (msgWin ((guess_notice s i guess).clientAt i).id guess)
    ptr := ptr }

/-- The bytes of a sequence of lines, each followed by the delimiter. -/
def joinLines : List (List Char) → List Char
  | [] => []
  | l :: ls => l ++ NL :: joinLines ls

/-- The tokens `strsep` yields for the lines of `joinLines lines ++ rest`:
each line with the bytes that follow its delimiter. -/
def lineTokens : List (List Char) → List Char → List (List Char × Option (List Char))
  | [], _ => []
  | l :: ls, rest => (l, some (joinLines ls ++ rest)) :: lineTokens ls rest

/-- From the spec's words: the entire line is a base-10 integer, an optional
sign followed by decimal digits; the result is the integer it denotes, of any
size. -/
def wholeInt (line : List Char) : Option Int :=
  let body := if line.head? = some MINUS ∨ line.head? = some PLUS then line.tail else line
  if body ≠ [] ∧ body.all isdigit = true then
    some (if line.head? = some MINUS then -((digitsValue body : Nat) : Int)
          else ((digitsValue body : Nat) : Int))
  else none

/-- The kinds of line C7 speaks of: empty, without any digit, or a whole-line
integer other than the target; the integer is one that fits an `int`. -/
def PlainLine (target : Int) (l : List Char) : Prop :=
  l = [] ∨ (∀ c ∈ l, isdigit c = false) ∨
    ∃ v, wholeInt l = some v ∧ INT_MIN ≤ v ∧ v ≤ INT_MAX ∧ v ≠ target

/-- The update of `clients[i]` made by the write path when `send` accepted `k`
bytes of the front message (see `write_handling_flush_front`). -/
def flush_front (c : Client) (k : Nat) : Client :=
  match c.wqueue with
  | [] => c
  | msg :: rest =>
    if msg.sent + k = msg.len then { c with wqueue := rest }
    else { c with wqueue := { msg with sent := msg.sent + k } :: rest }

/-- The bytes that `send(fd, msg->data + msg->sent, msg->len - msg->sent, 0)`
puts on the wire when it returns `k`, `msg` being the front message. -/
def sent_bytes (c : Client) (k : Nat) : List Char :=
  match c.wqueue with
  | [] => []
  | msg :: _ => ((msg.data.drop msg.sent).take (msg.len - msg.sent)).take k

/-- The bytes of an outbound queue that are still to be written. -/
def pending : List Message → List Char
  | [] => []
  | m :: ms => m.data.drop m.sent ++ pending ms

/-- The history of the outbound queue of one connection, from the moment it
holds a slot with an empty queue: the client, the bytes written so far and the
payloads enqueued so far, concatenated.  A step is an `enqueue_message` of a
text (the server's texts are never empty, see `server_texts_nonempty`) or a
write that accepts `k` bytes of what is left of the front message. -/
inductive QueueRun : Client → List Char → List Char → Prop where
  | start (c : Client) (h : c.wqueue = []) : QueueRun c [] []
  | enqueue (c : Client) (w e m : List Char) (hm : m ≠ []) (hr : QueueRun c w e) :
      QueueRun (enqueue_message c m m.length) w (e ++ m)
  | flush (c : Client) (w e : List Char) (msg : Message) (rest : List Message) (k : Nat)
      (hr : QueueRun c w e) (hq : c.wqueue = msg :: rest) (hk : k ≤ msg.len - msg.sent) :
      QueueRun (flush_front c k) (w ++ sent_bytes c k) e

/-- How the start of `main` ends, up to the allocation of the registry: one of
the three `return EXIT_FAILURE` of the argument checks, or the checks pass and
`main` goes on to `srand`, `calloc(max_players, ...)` and the socket set-up
with the given `max_players`. -/
inductive Startup where
  | usage_failure
  | port_failure
  | players_failure
  | allocates (max_players : Nat)
deriving DecidableEq

/-- Conversion of an `int` to the 32-bit `unsigned` of `max_players`: the value
modulo `2^32`. -/
def to_unsigned (v : Int) : Nat := (v % 4294967296).toNat

/-- The argument checks of `main`.  `port` and `players` are the `int` values
`atoi` returns for `argv[1]` and `argv[3]`; `players` is stored in the
`unsigned max_players` before it is compared. -/
def main_arguments (argc : Nat) (port players : Int) : Startup :=
  if argc ≠ 4 then .usage_failure
  else if port < 1 ∨ port > 65535 then .port_failure
  else if to_unsigned players ≤ 1 then .players_failure
  else .allocates (to_unsigned players)

/-- The index at which the read path writes the string terminator after `recv`
returned `n` bytes: `rpos += n; rbuf[rpos] = 0`. -/
def terminator_index (c : Client) (n : Nat) : Nat := c.rpos + n

/-! ## Basic facts about slots -/

theorem getD_updateClient (cs : List Client) (k j : Nat) (f : Client → Client) (d : Client) :
    (updateClient cs k f).getD j d =
      if j = k ∧ k < cs.length then f (cs.getD k d) else cs.getD j d := by
  unfold updateClient
  by_cases hk : k < cs.length
  · rw [List.getElem?_eq_getElem hk]
    simp only [List.getD_eq_getElem?_getD, List.getElem?_set, List.getElem?_eq_getElem hk]
    by_cases hjk : j = k
    · subst hjk; simp [hk]
    · have : ¬ k = j := fun h => hjk h.symm
      simp [hjk, this]
  · rw [List.getElem?_eq_none (by omega)]
    simp [hk]

theorem length_updateClient (cs : List Client) (k : Nat) (f : Client → Client) :
    (updateClient cs k f).length = cs.length := by
  unfold updateClient
  split <;> simp

theorem getD_map_blank (cs : List Client) (j : Nat) (f : Client → Client)
    (hf : f Client.blank = Client.blank) :
    (cs.map f).getD j Client.blank = f (cs.getD j Client.blank) := by
  simp only [List.getD_eq_getElem?_getD, List.getElem?_map]
  cases cs[j]? <;> simp [hf]

@[simp] theorem enqueue_message_fd (c : Client) (m : List Char) (n : Nat) :
    (enqueue_message c m n).fd = c.fd := rfl

@[simp] theorem enqueue_message_id (c : Client) (m : List Char) (n : Nat) :
    (enqueue_message c m n).id = c.id := rfl

@[simp] theorem enqueue_message_rpos (c : Client) (m : List Char) (n : Nat) :
    (enqueue_message c m n).rpos = c.rpos := rfl

@[simp] theorem enqueue_message_rbuf (c : Client) (m : List Char) (n : Nat) :
    (enqueue_message c m n).rbuf = c.rbuf := rfl

theorem enqueue_message_wqueue (c : Client) (m : List Char) :
    (enqueue_message c m m.length).wqueue =
      c.wqueue ++ [{ data := m, len := m.length, sent := 0 }] := by
  simp [enqueue_message]

theorem clientAt_broadcast (s : State) (msg : List Char) (e : Int) (j : Nat) :
    (broadcast s msg e).clientAt j =
      if (s.clientAt j).fd ≠ -1 ∧ ((s.clientAt j).id : Int) ≠ e
      then enqueue_message (s.clientAt j) msg msg.length else s.clientAt j := by
  unfold broadcast State.clientAt
  exact getD_map_blank _ _ _ (by simp [Client.blank])

theorem clientAt_reset_game (s : State) (r j : Nat) :
    (reset_game s r).clientAt j =
      if (s.clientAt j).fd ≠ -1
      then { s.clientAt j with fd := -1, wqueue := [], wq_cap := 0 } else s.clientAt j := by
  unfold reset_game State.clientAt
  exact getD_map_blank _ _ _ (by simp [Client.blank])

theorem clientAt_update (s : State) (k j : Nat) (f : Client → Client) :
    ({ s with clients := updateClient s.clients k f } : State).clientAt j =
      if j = k ∧ k < s.clients.length then f (s.clientAt k) else s.clientAt j := by
  unfold State.clientAt
  exact getD_updateClient _ _ _ _ _

theorem clientAt_update_lt (s : State) (k j : Nat) (f : Client → Client)
    (hk : k < s.clients.length) :
    ({ s with clients := updateClient s.clients k f } : State).clientAt j =
      if j = k then f (s.clientAt k) else s.clientAt j := by
  rw [clientAt_update]
  by_cases hj : j = k
  · rw [if_pos ⟨hj, hk⟩, if_pos hj]
  · rw [if_neg (fun h => hj h.1), if_neg hj]

theorem clientAt_updated (t s : State) (k j : Nat) (f : Client → Client)
    (h : t.clients = updateClient s.clients k f) (hk : k < s.clients.length) :
    t.clientAt j = if j = k then f (s.clientAt k) else s.clientAt j := by
  rw [← clientAt_update_lt s k j f hk]
  unfold State.clientAt
  rw [h]

theorem broadcast_length (s : State) (msg : List Char) (e : Int) :
    (broadcast s msg e).clients.length = s.clients.length := by
  simp [broadcast]

theorem clientAt_of_le (s : State) (j : Nat) (h : s.clients.length ≤ j) :
    s.clientAt j = Client.blank := by
  unfold State.clientAt
  simp [List.getD_eq_getElem?_getD, List.getElem?_eq_none h]

/-! ## The registry invariant -/

theorem Inv.of_same_ok {s s' : State} (h : Inv s)
    (hN : s'.max_players = s.max_players) (hlen : s'.clients.length = s.clients.length)
    (havail : s'.avail_ids = s.avail_ids) (hw : s'.waitq = s.waitq)
    (ht : s'.target = s.target)
    (hfd : ∀ j, (s'.clientAt j).fd = (s.clientAt j).fd)
    (hid : ∀ j, (s'.clientAt j).id = (s.clientAt j).id)
    (hq : ∀ j, (s.clientAt j).fd = -1 → (s'.clientAt j).wqueue = (s.clientAt j).wqueue) :
    Inv s' where
  len := by rw [hlen, hN]; exact h.len
  nodup := by rw [havail]; exact h.nodup
  free_iff := by intro id; rw [havail, hN, hfd]; exact h.free_iff id
  ids := by intro j hj hact; rw [hN] at hj; rw [hfd] at hact; rw [hid]; exact h.ids j hj hact
  idle := by intro j hj; rw [hfd] at hj; rw [hq j hj]; exact h.idle j hj
  fds := by intro j; rw [hfd]; exact h.fds j
  waiting := by rw [hw]; exact h.waiting
  target_range := by rw [ht]; exact h.target_range

theorem Fresh.of_same_fresh {s s' : State} (h : Fresh s)
    (hfd : ∀ j, (s'.clientAt j).fd = (s.clientAt j).fd)
    (hpos : ∀ j, (s'.clientAt j).rpos = (s.clientAt j).rpos)
    (hbuf : ∀ j, (s'.clientAt j).rbuf = (s.clientAt j).rbuf) : Fresh s' := by
  intro j hj
  rw [hfd] at hj
  rw [hpos, hbuf]
  exact h j hj

theorem broadcast_fd (s : State) (msg : List Char) (e : Int) (j : Nat) :
    ((broadcast s msg e).clientAt j).fd = (s.clientAt j).fd := by
  rw [clientAt_broadcast]; split <;> rfl

theorem broadcast_id (s : State) (msg : List Char) (e : Int) (j : Nat) :
    ((broadcast s msg e).clientAt j).id = (s.clientAt j).id := by
  rw [clientAt_broadcast]; split <;> rfl

theorem broadcast_rpos (s : State) (msg : List Char) (e : Int) (j : Nat) :
    ((broadcast s msg e).clientAt j).rpos = (s.clientAt j).rpos := by
  rw [clientAt_broadcast]; split <;> rfl

theorem broadcast_rbuf (s : State) (msg : List Char) (e : Int) (j : Nat) :
    ((broadcast s msg e).clientAt j).rbuf = (s.clientAt j).rbuf := by
  rw [clientAt_broadcast]; split <;> rfl

theorem Inv.broadcast_ok {s : State} (h : Inv s) (msg : List Char) (e : Int) :
    Inv (broadcast s msg e) := by
  refine h.of_same_ok rfl (by simp [GameServer.broadcast]) rfl rfl rfl
    (broadcast_fd s msg e) (broadcast_id s msg e) ?_
  intro j hj
  rw [clientAt_broadcast, if_neg (by simp [hj])]

theorem Fresh.broadcast_fresh {s : State} (h : Fresh s) (msg : List Char) (e : Int) :
    Fresh (broadcast s msg e) :=
  h.of_same_fresh (broadcast_fd s msg e) (broadcast_rpos s msg e) (broadcast_rbuf s msg e)

theorem Inv.init_ok (n r : Nat) : Inv (init n r) where
  len := by simp [GameServer.init]
  nodup := by
    unfold GameServer.init
    exact (List.nodup_range n).map (fun a b hab => by simpa using hab)
  free_iff := by
    intro id
    have hb : ((GameServer.init n r).clientAt (id - 1)).fd = -1 := by
      unfold State.clientAt GameServer.init
      simp only [List.getD_eq_getElem?_getD]
      by_cases hlt : id - 1 < n
      · simp [List.getElem?_replicate, hlt, Client.blank]
      · simp [List.getElem?_replicate, hlt, Client.blank]
    simp only [hb, and_true]
    simp only [GameServer.init, List.mem_map, List.mem_range]
    constructor
    · rintro ⟨a, ha, rfl⟩; omega
    · rintro ⟨h1, h2⟩; exact ⟨id - 1, by omega, by omega⟩
  ids := by
    intro j _ hact
    exfalso; apply hact
    unfold State.clientAt GameServer.init
    simp only [List.getD_eq_getElem?_getD]
    by_cases hlt : j < n
    · simp [List.getElem?_replicate, hlt, Client.blank]
    · simp [List.getElem?_replicate, hlt, Client.blank]
  idle := by
    intro j _
    unfold State.clientAt GameServer.init
    simp only [List.getD_eq_getElem?_getD]
    by_cases hlt : j < n
    · simp [List.getElem?_replicate, hlt, Client.blank]
    · simp [List.getElem?_replicate, hlt, Client.blank]
  fds := by
    intro j
    unfold State.clientAt GameServer.init
    simp only [List.getD_eq_getElem?_getD]
    by_cases hlt : j < n
    · simp [List.getElem?_replicate, hlt, Client.blank]
    · simp [List.getElem?_replicate, hlt, Client.blank]
  waiting := by simp [GameServer.init]
  target_range := by
    simp only [GameServer.init, SECRET_NUM_MAX]
    omega

theorem Fresh.init_fresh (n r : Nat) : Fresh (init n r) := by
  intro j hact
  exfalso; apply hact
  unfold State.clientAt GameServer.init
  simp only [List.getD_eq_getElem?_getD]
  by_cases hlt : j < n
  · simp [List.getElem?_replicate, hlt, Client.blank]
  · simp [List.getElem?_replicate, hlt, Client.blank]

theorem getElem?_clients (s : State) (j : Nat) (h : j < s.clients.length) :
    s.clients[j]? = some (s.clientAt j) := by
  unfold State.clientAt
  simp [List.getD_eq_getElem?_getD, List.getElem?_eq_getElem h]

theorem Inv.top_free_ok {s : State} (h : Inv s) {id : Nat}
    (hid : s.avail_ids.getLast? = some id) :
    s.avail_ids = s.avail_ids.dropLast ++ [id] ∧ id ∉ s.avail_ids.dropLast ∧
      1 ≤ id ∧ id ≤ s.max_players ∧ (s.clientAt (id - 1)).fd = -1 := by
  have happ : s.avail_ids.dropLast ++ [id] = s.avail_ids :=
    List.dropLast_append_getLast? id (by simp [hid])
  have hmem : id ∈ s.avail_ids := by rw [← happ]; simp
  have hnd := h.nodup
  rw [← happ] at hnd
  have hnot : id ∉ s.avail_ids.dropLast := by
    intro hin
    have := List.disjoint_of_nodup_append hnd hin
    simp at this
  exact ⟨happ.symm, hnot, (h.free_iff id).1 hmem⟩

/-- Taking the id on top of the free-id stack and putting a descriptor in its
slot keeps the registry invariant: the shared core of the accept path and of
`promote_waiting`. -/
theorem Inv.install_ok {s : State} (h : Inv s) {id : Nat}
    (hid : s.avail_ids.getLast? = some id) {new_fd : Int} (hfd : 0 ≤ new_fd)
    (g : Client → Client) (hg_fd : ∀ c, (g c).fd = new_fd) (hg_id : ∀ c, (g c).id = id)
    (wq : List Int) (hwq : ∀ fd ∈ wq, 0 ≤ fd) :
    Inv { s with waitq := wq, avail_ids := s.avail_ids.dropLast,
                 clients := updateClient s.clients (id - 1) g } := by
  obtain ⟨happ, hnot, h1, h2, hfree⟩ := h.top_free_ok hid
  have hlen := h.len
  have hslot : id - 1 < s.clients.length := by omega
  have hat : ∀ j, State.clientAt
      { s with waitq := wq, avail_ids := s.avail_ids.dropLast
               clients := updateClient s.clients (id - 1) g } j =
      if j = id - 1 then g (s.clientAt (id - 1)) else s.clientAt j := by
    intro j
    have := clientAt_update s (id - 1) j g
    simp only [State.clientAt] at this ⊢
    rw [this]
    simp [hslot]
  refine ⟨?_, ?_, ?_, ?_, ?_, ?_, ?_, h.target_range⟩
  · simpa [length_updateClient] using hlen
  · have hnd := h.nodup
    rw [happ] at hnd
    exact (List.nodup_append.1 hnd).1
  · intro x
    rw [hat]
    show x ∈ s.avail_ids.dropLast ↔ 1 ≤ x ∧ x ≤ s.max_players ∧ _
    constructor
    · intro hx
      have hx' : x ∈ s.avail_ids := by rw [happ]; simp [hx]
      obtain ⟨a, b, c⟩ := (h.free_iff x).1 hx'
      have hne : x ≠ id := fun e => hnot (e ▸ hx)
      have : ¬ x - 1 = id - 1 := by omega
      rw [if_neg this]
      exact ⟨a, b, c⟩
    · rintro ⟨a, b, c⟩
      by_cases hxe : x - 1 = id - 1
      · rw [if_pos hxe, hg_fd] at c; omega
      · rw [if_neg hxe] at c
        have hx' : x ∈ s.avail_ids := (h.free_iff x).2 ⟨a, b, c⟩
        rw [happ] at hx'
        rcases List.mem_append.1 hx' with hx'' | hx''
        · exact hx''
        · simp at hx''; omega
  · intro j hj hact
    rw [hat] at hact ⊢
    by_cases hje : j = id - 1
    · rw [if_pos hje, hg_id]; omega
    · rw [if_neg hje] at hact ⊢; exact h.ids j hj hact
  · intro j hj
    rw [hat] at hj ⊢
    by_cases hje : j = id - 1
    · rw [if_pos hje, hg_fd] at hj; omega
    · rw [if_neg hje] at hj ⊢; exact h.idle j hj
  · intro j
    rw [hat]
    by_cases hje : j = id - 1
    · rw [if_pos hje, hg_fd]; omega
    · rw [if_neg hje]; exact h.fds j
  · exact hwq

theorem Fresh.install_fresh {s : State} (h : Fresh s) (k : Nat)
    (g : Client → Client) (hg_pos : ∀ c, (g c).rpos = 0) (hg_buf : ∀ c, (g c).rbuf = [])
    (wq : List Int) (av : List Nat) :
    Fresh { s with waitq := wq, avail_ids := av, clients := updateClient s.clients k g } := by
  intro j hj
  have := clientAt_update s k j g
  simp only [State.clientAt] at this hj ⊢
  rw [this] at hj ⊢
  split
  · exact ⟨hg_pos _, hg_buf _⟩
  · rename_i hne
    rw [if_neg hne] at hj
    exact h j hj

theorem Inv.accept_connection_ok {s : State} (h : Inv s) {new_fd : Int} (hfd : 0 ≤ new_fd) :
    Inv (accept_connection s new_fd) := by
  unfold GameServer.accept_connection
  split
  · rename_i id hid
    exact (h.install_ok hid hfd _ (fun _ => rfl) (fun _ => rfl) s.waitq h.waiting).broadcast_ok _ _
  · refine ⟨h.len, h.nodup, h.free_iff, h.ids, h.idle, h.fds, ?_, h.target_range⟩
    intro fd hmem
    rcases List.mem_append.1 hmem with hm | hm
    · exact h.waiting fd hm
    · simp at hm; omega

theorem Fresh.accept_connection_fresh {s : State} (h : Fresh s) (new_fd : Int) :
    Fresh (accept_connection s new_fd) := by
  unfold GameServer.accept_connection
  split
  · exact (h.install_fresh _ _ (fun _ => rfl) (fun _ => rfl) s.waitq _).broadcast_fresh _ _
  · exact h

theorem Inv.promote_body_ok {s : State} (h : Inv s) {id : Nat} {new_fd : Int} {rest : List Int}
    (hid : s.avail_ids.getLast? = some id) (hw : s.waitq = new_fd :: rest) :
    Inv (promote_body s new_fd rest id) := by
  have hall := h.waiting
  rw [hw] at hall
  exact (h.install_ok hid (hall new_fd (by simp)) _ (fun _ => rfl) (fun _ => rfl) rest
    (fun fd hfd => hall fd (by simp [hfd]))).broadcast_ok _ _

theorem Fresh.promote_body_fresh {s : State} (h : Fresh s) (id : Nat) (new_fd : Int)
    (rest : List Int) : Fresh (promote_body s new_fd rest id) :=
  (h.install_fresh _ _ (fun _ => rfl) (fun _ => rfl) rest _).broadcast_fresh _ _

theorem Inv.promote_loop_ok {s : State} (h : Inv s) (fuel : Nat) : Inv (promote_loop fuel s) := by
  induction fuel generalizing s with
  | zero => exact h
  | succ n ih =>
    unfold GameServer.promote_loop
    split
    · rename_i id new_fd rest hid hw
      exact ih (h.promote_body_ok hid hw)
    · exact h

theorem Fresh.promote_loop_fresh {s : State} (h : Fresh s) (fuel : Nat) :
    Fresh (promote_loop fuel s) := by
  induction fuel generalizing s with
  | zero => exact h
  | succ n ih =>
    unfold GameServer.promote_loop
    split
    · exact ih (h.promote_body_fresh _ _ _)
    · exact h

theorem waitq_promote_body (s : State) (id : Nat) (new_fd : Int) (rest : List Int) :
    (promote_body s new_fd rest id).waitq = rest := rfl

/-- The iteration bound of `promote_waiting` is never what stops the loop: on
return the free-id stack or the waiting queue is empty. -/
theorem promote_loop_exit (fuel : Nat) (s : State) (h : s.waitq.length ≤ fuel) :
    (promote_loop fuel s).avail_ids = [] ∨ (promote_loop fuel s).waitq = [] := by
  induction fuel generalizing s with
  | zero =>
    right
    simpa [GameServer.promote_loop] using h
  | succ n ih =>
    unfold GameServer.promote_loop
    split
    · rename_i id new_fd rest hid hw
      apply ih
      rw [waitq_promote_body]
      rw [hw] at h
      simpa using h
    · rename_i hno
      cases hq : s.waitq with
      | nil => right; rfl
      | cons a l =>
        cases ha : s.avail_ids.getLast? with
        | none => left; simpa using ha
        | some id => exact absurd hq (hno id a l ha)

theorem promote_waiting_exit (s : State) :
    (promote_waiting s).avail_ids = [] ∨ (promote_waiting s).waitq = [] :=
  promote_loop_exit _ s (Nat.le_refl _)

theorem clientAt_release_slot {s : State} {idx : Nat} (hidx : idx < s.clients.length) (j : Nat) :
    (release_slot s idx).clientAt j =
      if j = idx then
        { (broadcast s (msgDisconnected (s.clientAt idx).id) (s.clientAt idx).id).clientAt idx
          with fd := -1, wqueue := [], wq_cap := 0 }
      else (broadcast s (msgDisconnected (s.clientAt idx).id) (s.clientAt idx).id).clientAt j := by
  unfold release_slot
  rw [getElem?_clients s idx hidx]
  exact clientAt_update_lt (broadcast s (msgDisconnected (s.clientAt idx).id) (s.clientAt idx).id)
    idx j (fun c1 => { c1 with fd := -1, wqueue := [], wq_cap := 0 })
    (by rw [broadcast_length]; exact hidx)

theorem avail_release_slot {s : State} {idx : Nat} (hidx : idx < s.clients.length) :
    (release_slot s idx).avail_ids = s.avail_ids ++ [(s.clientAt idx).id] := by
  unfold release_slot
  rw [getElem?_clients s idx hidx]
  rfl

theorem waitq_release_slot (s : State) (idx : Nat) :
    (release_slot s idx).waitq = s.waitq := by
  unfold release_slot
  split <;> rfl

theorem Inv.release_slot_ok {s : State} (h : Inv s) {idx : Nat} (hidx : idx < s.max_players)
    (hact : (s.clientAt idx).fd ≠ -1) : Inv (release_slot s idx) := by
  have hlen := h.len
  have hidx' : idx < s.clients.length := by omega
  have hidv : (s.clientAt idx).id = idx + 1 := h.ids idx hidx hact
  have hfd : ∀ j, ((GameServer.release_slot s idx).clientAt j).fd =
      if j = idx then -1 else (s.clientAt j).fd := by
    intro j
    rw [clientAt_release_slot hidx']
    split
    · rfl
    · exact broadcast_fd _ _ _ _
  have hnotin : idx + 1 ∉ s.avail_ids := by
    intro hin
    have := ((h.free_iff (idx + 1)).1 hin).2.2
    simp only [Nat.add_sub_cancel] at this
    exact hact this
  refine ⟨?_, ?_, ?_, ?_, ?_, ?_, ?_, ?_⟩
  · unfold GameServer.release_slot
    rw [getElem?_clients s idx hidx']
    simpa [length_updateClient, broadcast_length] using hlen
  · rw [avail_release_slot hidx', hidv]
    exact List.Nodup.append h.nodup (List.nodup_singleton _) (by simpa using hnotin)
  · intro x
    rw [avail_release_slot hidx', hidv, hfd]
    have hmp : (GameServer.release_slot s idx).max_players = s.max_players := by
      unfold GameServer.release_slot; split <;> rfl
    rw [hmp]
    constructor
    · intro hx
      rcases List.mem_append.1 hx with hx' | hx'
      · obtain ⟨a, b, c⟩ := (h.free_iff x).1 hx'
        refine ⟨a, b, ?_⟩
        split
        · rfl
        · exact c
      · simp at hx'
        subst hx'
        refine ⟨by omega, by omega, ?_⟩
        simp
    · rintro ⟨a, b, c⟩
      by_cases hxe : x - 1 = idx
      · have : x = idx + 1 := by omega
        simp [this]
      · rw [if_neg hxe] at c
        exact List.mem_append.2 (Or.inl ((h.free_iff x).2 ⟨a, b, c⟩))
  · intro j hj hja
    have hmp : (GameServer.release_slot s idx).max_players = s.max_players := by
      unfold GameServer.release_slot; split <;> rfl
    rw [hmp] at hj
    rw [hfd] at hja
    by_cases hje : j = idx
    · simp [hje] at hja
    · rw [if_neg hje] at hja
      rw [clientAt_release_slot hidx', if_neg hje, broadcast_id]
      exact h.ids j hj hja
  · intro j hj
    rw [hfd] at hj
    rw [clientAt_release_slot hidx']
    by_cases hje : j = idx
    · rw [if_pos hje]
    · rw [if_neg hje] at hj ⊢
      rw [clientAt_broadcast, if_neg (by simp [hj])]
      exact h.idle j hj
  · intro j
    rw [hfd]
    split
    · omega
    · exact h.fds j
  · rw [waitq_release_slot]; exact h.waiting
  · have : (GameServer.release_slot s idx).target = s.target := by
      unfold GameServer.release_slot; split <;> rfl
    rw [this]; exact h.target_range

theorem Fresh.release_slot_fresh {s : State} (h : Fresh s) (idx : Nat) :
    Fresh (release_slot s idx) := by
  by_cases hidx : idx < s.clients.length
  · intro j hj
    rw [clientAt_release_slot hidx] at hj ⊢
    by_cases hje : j = idx
    · rw [if_pos hje] at hj; simp at hj
    · rw [if_neg hje] at hj ⊢
      exact h.broadcast_fresh _ _ j hj
  · unfold GameServer.release_slot
    rw [List.getElem?_eq_none (by omega)]
    exact h

theorem Inv.handle_disconnect_ok {s : State} (h : Inv s) {idx : Nat} (hidx : idx < s.max_players)
    (hact : (s.clientAt idx).fd ≠ -1) : Inv (handle_disconnect s idx) :=
  (h.release_slot_ok hidx hact).promote_loop_ok _

theorem Fresh.handle_disconnect_fresh {s : State} (h : Fresh s) (idx : Nat) :
    Fresh (handle_disconnect s idx) :=
  (h.release_slot_fresh idx).promote_loop_fresh _

theorem reset_game_fd (s : State) (r j : Nat) : ((reset_game s r).clientAt j).fd = -1 := by
  rw [clientAt_reset_game]
  split
  · rfl
  · rename_i hn; simpa using hn

theorem Inv.reset_game_ok {s : State} (h : Inv s) (r : Nat) : Inv (reset_game s r) := by
  have hfd : ∀ j, ((GameServer.reset_game s r).clientAt j).fd = -1 := reset_game_fd s r
  refine ⟨?_, ?_, ?_, ?_, ?_, ?_, h.waiting, ?_⟩
  · simpa [GameServer.reset_game] using h.len
  · exact (List.nodup_range _).map (fun a b hab => by simpa using hab)
  · intro x
    simp only [hfd, and_true]
    simp only [GameServer.reset_game, List.mem_map, List.mem_range]
    constructor
    · rintro ⟨a, ha, rfl⟩; omega
    · rintro ⟨h1, h2⟩; exact ⟨x - 1, by omega, by omega⟩
  · intro j _ hja
    exact absurd (hfd j) hja
  · intro j _
    rw [clientAt_reset_game]
    split
    · rfl
    · rename_i hn
      exact h.idle j (by simpa using hn)
  · intro j; rw [hfd]
  · simp only [GameServer.reset_game, SECRET_NUM_MAX]
    omega

theorem Fresh.reset_game_fresh (s : State) (r : Nat) : Fresh (reset_game s r) :=
  fun j hj => absurd (reset_game_fd s r j) hj

theorem FreshExcept.of_same_except {i : Nat} {s s' : State} (h : FreshExcept i s)
    (hfd : ∀ j, (s'.clientAt j).fd = (s.clientAt j).fd)
    (hpos : ∀ j, j ≠ i → (s'.clientAt j).rpos = (s.clientAt j).rpos)
    (hbuf : ∀ j, j ≠ i → (s'.clientAt j).rbuf = (s.clientAt j).rbuf) : FreshExcept i s' := by
  intro j hji hj
  rw [hfd] at hj
  rw [hpos j hji, hbuf j hji]
  exact h j hji hj

/-- A change of `clients[i]` that keeps `fd` and `id`, and keeps the outbound
queue when the slot is empty, keeps the registry invariant. -/
theorem Inv.update_ok {s : State} (h : Inv s) (i : Nat) (f : Client → Client)
    (hf_fd : ∀ c, (f c).fd = c.fd) (hf_id : ∀ c, (f c).id = c.id)
    (hf_q : (s.clientAt i).fd = -1 → (f (s.clientAt i)).wqueue = (s.clientAt i).wqueue) :
    Inv { s with clients := updateClient s.clients i f } := by
  refine h.of_same_ok rfl (length_updateClient _ _ _) rfl rfl rfl ?_ ?_ ?_
  · intro j; rw [clientAt_update]; split
    · rename_i hc; rw [hf_fd, hc.1]
    · rfl
  · intro j; rw [clientAt_update]; split
    · rename_i hc; rw [hf_id, hc.1]
    · rfl
  · intro j hj; rw [clientAt_update]; split
    · rename_i hc
      rw [hc.1] at hj ⊢
      exact hf_q hj
    · rfl

theorem guess_notice_fd (s : State) (i : Nat) (g : Int) (j : Nat) :
    ((guess_notice s i g).clientAt j).fd = (s.clientAt j).fd := broadcast_fd _ _ _ _

theorem enqueue_feedback_fd (s : State) (i : Nat) (g : Int) (j : Nat) :
    ((enqueue_feedback s i g).clientAt j).fd = (s.clientAt j).fd := by
  unfold enqueue_feedback
  rw [clientAt_update]; split
  · rename_i hc; rw [enqueue_message_fd, hc.1]
  · rfl

theorem enqueue_feedback_rpos (s : State) (i : Nat) (g : Int) (j : Nat) :
    ((enqueue_feedback s i g).clientAt j).rpos = (s.clientAt j).rpos := by
  unfold enqueue_feedback
  rw [clientAt_update]; split
  · rename_i hc; rw [enqueue_message_rpos, hc.1]
  · rfl

theorem enqueue_feedback_rbuf (s : State) (i : Nat) (g : Int) (j : Nat) :
    ((enqueue_feedback s i g).clientAt j).rbuf = (s.clientAt j).rbuf := by
  unfold enqueue_feedback
  rw [clientAt_update]; split
  · rename_i hc; rw [enqueue_message_rbuf, hc.1]
  · rfl

theorem Inv.enqueue_feedback_ok {s : State} (h : Inv s) {i : Nat}
    (hact : (s.clientAt i).fd ≠ -1) (g : Int) : Inv (enqueue_feedback s i g) :=
  h.update_ok i _ (fun _ => rfl) (fun _ => rfl) (fun hc => absurd hc hact)

/-- The line loop keeps the registry invariant; when it is left through
`break` (`ptr` not `NULL`) every slot has been emptied. -/
theorem decode_loop_inv (i r : Nat) (toks : List (List Char × Option (List Char))) :
    ∀ s : State, Inv s → (s.clientAt i).fd ≠ -1 → FreshExcept i s →
      Inv (decode_loop i r s toks).state ∧ FreshExcept i (decode_loop i r s toks).state ∧
      ((decode_loop i r s toks).ptr ≠ none →
        ((decode_loop i r s toks).state.clientAt i).fd = -1) := by
  induction toks with
  | nil =>
    intro s h _ hfr
    exact ⟨h, hfr, fun hp => absurd rfl hp⟩
  | cons tok more ih =>
    intro s h hact hfr
    obtain ⟨line, ptr⟩ := tok
    unfold decode_loop
    split
    · exact ih s h hact hfr
    · split
      · exact ih s h hact hfr
      · rename_i guess _
        simp only
        split
        · refine ⟨(h.broadcast_ok _ _).reset_game_ok r, ?_, ?_⟩
          · intro j _ hj
            exact absurd (reset_game_fd _ r j) hj
          · intro _
            exact reset_game_fd _ r i
        · apply ih
          · exact (h.broadcast_ok _ _).enqueue_feedback_ok
              (by rw [broadcast_fd]; exact hact) guess
          · rw [enqueue_feedback_fd, guess_notice_fd]; exact hact
          · refine hfr.of_same_except ?_ ?_ ?_
            · intro j; rw [enqueue_feedback_fd, guess_notice_fd]
            · intro j _; rw [enqueue_feedback_rpos]; exact broadcast_rpos _ _ _ _
            · intro j _; rw [enqueue_feedback_rbuf]; exact broadcast_rbuf _ _ _ _

theorem Inv.read_handling_ok {s : State} (h : Inv s) (hfr : Fresh s) {i : Nat}
    (hact : (s.clientAt i).fd ≠ -1) (bytes : List Char) (r : Nat) :
    Inv (read_handling s i bytes r).1 ∧ Fresh (read_handling s i bytes r).1 := by
  unfold GameServer.read_handling
  simp only
  generalize hraw : (s.clientAt i).rbuf.take (s.clientAt i).rpos ++ bytes = raw
  have h0 : Inv { s with clients := updateClient s.clients i (fun c =>
      { c with rbuf := raw, rpos := c.rpos + bytes.length }) } :=
    h.update_ok i _ (fun _ => rfl) (fun _ => rfl) (fun _ => rfl)
  have hact0 : (State.clientAt { s with clients := updateClient s.clients i (fun c =>
      { c with rbuf := raw, rpos := c.rpos + bytes.length }) } i).fd ≠ -1 := by
    rw [clientAt_update]; split
    · exact hact
    · exact hact
  have hfr0 : FreshExcept i { s with clients := updateClient s.clients i (fun c =>
      { c with rbuf := raw, rpos := c.rpos + bytes.length }) } := by
    intro j hji hj
    rw [clientAt_update, if_neg (fun hc => hji hc.1)] at hj ⊢
    exact hfr j hj
  obtain ⟨hI, hF, hP⟩ := decode_loop_inv i r (strsepAll raw) _ h0 hact0 hfr0
  generalize decode_loop i r _ (strsepAll raw) = res at hI hF hP
  constructor
  · exact hI.update_ok i _ (fun c => by split <;> rfl) (fun c => by split <;> rfl)
      (fun _ => by split <;> rfl)
  · intro j hj
    rw [clientAt_update] at hj ⊢
    split
    · rename_i hc
      rw [if_pos hc] at hj
      cases hp : res.ptr with
      | none => simp
      | some rest =>
        exfalso
        have hfd := hP (by rw [hp]; simp)
        apply hj
        rw [hp]
        exact hfd
    · rename_i hc
      rw [if_neg hc] at hj
      by_cases hji : j = i
      · subst hji
        have hge : res.state.clients.length ≤ j := by
          by_contra hlt
          exact hc ⟨rfl, by omega⟩
        rw [clientAt_of_le _ _ hge] at hj
        exact absurd rfl hj
      · exact hF j hji hj

theorem Inv.write_handling_ok {s : State} (h : Inv s) (i k : Nat) : Inv (write_handling s i k) := by
  unfold GameServer.write_handling
  refine h.update_ok i _ ?_ ?_ ?_
  · intro c; split
    · rfl
    · split <;> rfl
  · intro c; split
    · rfl
    · split <;> rfl
  · intro hc
    simp [h.idle i hc]

theorem Fresh.write_handling_fresh {s : State} (h : Fresh s) (i k : Nat) :
    Fresh (write_handling s i k) := by
  have hsame : ∀ c : Client, ∀ f : Client → Client,
      (f = fun c : Client =>
        match c.wqueue with
        | [] => c
        | msg :: rest =>
          if msg.sent + k = msg.len then { c with wqueue := rest }
          else { c with wqueue := { msg with sent := msg.sent + k } :: rest }) →
      (f c).fd = c.fd ∧ (f c).rpos = c.rpos ∧ (f c).rbuf = c.rbuf := by
    intro c f hf
    subst hf
    simp only
    split
    · exact ⟨rfl, rfl, rfl⟩
    · split <;> exact ⟨rfl, rfl, rfl⟩
  unfold GameServer.write_handling
  refine h.of_same_fresh ?_ ?_ ?_ <;>
  · intro j
    rw [clientAt_update]
    split
    · rename_i hc
      rw [hc.1]
      first
        | exact (hsame _ _ rfl).1
        | exact (hsame _ _ rfl).2.1
        | exact (hsame _ _ rfl).2.2
    · rfl

theorem Inv.drop_waiting_ok {s : State} (h : Inv s) (j : Nat) : Inv (drop_waiting s j) :=
  ⟨h.len, h.nodup, h.free_iff, h.ids, h.idle, h.fds,
    fun fd hfd => h.waiting fd (List.mem_of_mem_eraseIdx hfd), h.target_range⟩

/-- Every reachable state satisfies the registry invariant and has empty read
buffers on the slots in use. -/
theorem Reachable.inv {s : State} (h : Reachable s) : Inv s ∧ Fresh s := by
  induction h with
  | start n r _ => exact ⟨Inv.init_ok n r, Fresh.init_fresh n r⟩
  | next s e _ he ih =>
    obtain ⟨hI, hF⟩ := ih
    cases e with
    | accept new_fd => exact ⟨hI.accept_connection_ok he, hF.accept_connection_fresh new_fd⟩
    | recvClosed i => exact ⟨hI.handle_disconnect_ok he.1 he.2, hF.handle_disconnect_fresh i⟩
    | recvData i bytes r => exact hI.read_handling_ok hF he.2.1 bytes r
    | sendOk i k => exact ⟨hI.write_handling_ok i k, hF.write_handling_fresh i k⟩
    | sendFailed i => exact ⟨hI.handle_disconnect_ok he.1 he.2.1, hF.handle_disconnect_fresh i⟩
    | waitClosed j => exact ⟨hI.drop_waiting_ok j, hF⟩

theorem Inv.count_ok {s : State} (h : Inv s) :
    s.activeCount + s.avail_count = s.max_players := by
  have hperm : s.avail_ids.Perm
      (((List.range s.max_players).filter (fun j => !decide (s.active j))).map
        (fun j => j + 1)) := by
    refine (List.perm_ext_iff_of_nodup h.nodup ?_).2 ?_
    · exact ((List.nodup_range _).filter _).map (fun a b hab => by simpa using hab)
    · intro id
      rw [h.free_iff]
      simp only [List.mem_map, List.mem_filter, List.mem_range, State.active,
        Bool.not_eq_true', decide_eq_false_iff_not, ne_eq, not_not]
      constructor
      · rintro ⟨a, b, c⟩
        exact ⟨id - 1, ⟨by omega, c⟩, by omega⟩
      · rintro ⟨j, ⟨hj, hc⟩, rfl⟩
        exact ⟨by omega, by omega, by simpa using hc⟩
  have hsplit := List.length_eq_length_filter_add (l := List.range s.max_players)
    (fun j => decide (s.active j))
  unfold State.activeCount State.avail_count
  rw [hperm.length_eq, List.length_map]
  rw [List.length_range] at hsplit
  omega

/-! ## Concrete runs used as witnesses -/

theorem fullHouse_reachable : Reachable fullHouse :=
  .next _ _ (.next _ _ (.start 2 41 (by decide)) (by decide)) (by decide)

theorem fullHouseWaiting_reachable : Reachable fullHouseWaiting :=
  .next _ _ (.next _ _ fullHouse_reachable (by decide)) (by decide)

/-! ## C1: the registry invariant -/

/-- C1. In every reachable state the free-id stack has no duplicate and holds
an id exactly when that id is in `1 .. max_players` and its slot `id - 1` is
empty; hence the number of slots in use plus the number of free ids is
`max_players`; the id an accept would take (the top of the stack) has an empty
slot, and so does the id taken by every iteration of `promote_waiting` run by
the disconnect handling of any slot in use. -/
theorem registry_invariant (s : State) (h : Reachable s) :
    s.avail_ids.Nodup ∧
    (∀ id, id ∈ s.avail_ids ↔ (1 ≤ id ∧ id ≤ s.max_players ∧ ¬ s.active (id - 1))) ∧
    s.activeCount + s.avail_count = s.max_players ∧
    (∀ id, s.avail_ids.getLast? = some id → ¬ s.active (id - 1)) ∧
    (∀ idx, idx < s.max_players → s.active idx → ∀ iterations id,
      (promote_loop iterations (release_slot s idx)).avail_ids.getLast? = some id →
      ¬ (promote_loop iterations (release_slot s idx)).active (id - 1)) := by
  have hI := h.inv.1
  refine ⟨hI.nodup, ?_, hI.count_ok, ?_, ?_⟩
  · intro id
    rw [hI.free_iff]
    simp [State.active]
  · intro id hid
    have := (hI.top_free_ok hid).2.2.2.2
    simpa [State.active] using this
  · intro idx hidx hact k id hid
    have hI' : Inv (promote_loop k (release_slot s idx)) :=
      (hI.release_slot_ok hidx hact).promote_loop_ok k
    have := (hI'.top_free_ok hid).2.2.2.2
    simpa [State.active] using this

theorem registry_invariant_witness :
    Reachable fullHouseWaiting ∧
    (fullHouseWaiting.avail_ids.Nodup ∧
    (∀ id, id ∈ fullHouseWaiting.avail_ids ↔
      (1 ≤ id ∧ id ≤ fullHouseWaiting.max_players ∧ ¬ fullHouseWaiting.active (id - 1))) ∧
    fullHouseWaiting.activeCount + fullHouseWaiting.avail_count = fullHouseWaiting.max_players ∧
    (∀ id, fullHouseWaiting.avail_ids.getLast? = some id → ¬ fullHouseWaiting.active (id - 1)) ∧
    (∀ idx, idx < fullHouseWaiting.max_players → fullHouseWaiting.active idx → ∀ iterations id,
      (promote_loop iterations (release_slot fullHouseWaiting idx)).avail_ids.getLast? = some id →
      ¬ (promote_loop iterations (release_slot fullHouseWaiting idx)).active (id - 1))) :=
  ⟨fullHouseWaiting_reachable, registry_invariant fullHouseWaiting fullHouseWaiting_reachable⟩

/-! ## C2: order in which ids are handed out -/

theorem getLast?_range_succ_map (n : Nat) :
    ((List.range (n + 1)).map (fun i => i + 1)).getLast? = some (n + 1) := by
  simp [List.range_succ]

theorem dropLast_range_succ_map (n : Nat) :
    ((List.range (n + 1)).map (fun i => i + 1)).dropLast = (List.range n).map (fun i => i + 1) := by
  simp [List.range_succ]

theorem acceptedInOrder_step {N : Nat} {fds : List Int} {s : State}
    (h : AcceptedInOrder N fds s) (hroom : fds.length < N) (fd : Int) :
    AcceptedInOrder N (fds ++ [fd]) (accept_connection s fd) := by
  obtain ⟨m, hm⟩ : ∃ m, N - fds.length = m + 1 := ⟨N - fds.length - 1, by omega⟩
  have hav := h.avail
  rw [hm] at hav
  have htop : s.avail_ids.getLast? = some (m + 1) := by rw [hav]; exact getLast?_range_succ_map m
  have hslot : m < s.clients.length := by rw [h.len]; omega
  have hat : ∀ j, (accept_connection s fd).clientAt j =
      if j = m then
        enqueue_message { s.clientAt m with fd := fd, id := m + 1, rpos := 0, rbuf := [] }
          (msgWelcome (m + 1)) (msgWelcome (m + 1)).length
      else if (s.clientAt j).fd ≠ -1 ∧ ((s.clientAt j).id : Int) ≠ ((m + 1 : Nat) : Int)
        then enqueue_message (s.clientAt j) (msgJoined (m + 1)) (msgJoined (m + 1)).length
        else s.clientAt j := by
    intro j
    unfold accept_connection
    rw [htop]
    simp only [Nat.add_sub_cancel]
    rw [clientAt_broadcast, clientAt_updated _ s m j _ rfl hslot]
    by_cases hj : j = m
    · simp [hj]
    · simp [hj]
  have hlen' : (fds ++ [fd]).length = fds.length + 1 := by simp
  refine ⟨?_, ?_, ?_, ?_⟩
  · unfold accept_connection
    rw [htop]
    simpa [broadcast_length, length_updateClient] using h.len
  · unfold accept_connection
    rw [htop]
    show s.avail_ids.dropLast = _
    rw [hav, dropLast_range_succ_map, hlen']
    congr 2
    omega
  · intro j hj
    rw [hlen'] at hj
    have hb := h.untouched j (by omega)
    rw [hat, if_neg (by omega), hb]
    simp [Client.blank]
  · intro k hk
    rw [hlen'] at hk
    rw [hat]
    by_cases hkl : k = fds.length
    · have hidx : N - 1 - k = m := by omega
      have hb := h.untouched m (by omega)
      rw [if_pos hidx, hb]
      refine ⟨?_, ?_, ?_⟩
      · simp [hkl]
      · show m + 1 = N - k
        omega
      · have : N - k = m + 1 := by omega
        rw [this]
        simp [enqueue_message, Client.blank]
    · have hk' : k < fds.length := by omega
      obtain ⟨a, b, c⟩ := h.placed k hk'
      rw [if_neg (by omega)]
      have hget : (fds ++ [fd])[k]? = fds[k]? := List.getElem?_append_left hk'
      rw [hget]
      split
      · refine ⟨a, b, ?_⟩
        rw [enqueue_message]
        simp only
        cases hq : (s.clientAt (N - 1 - k)).wqueue with
        | nil => rw [hq] at c; simp at c
        | cons x xs => rw [hq] at c; simpa using c
      · exact ⟨a, b, c⟩

theorem acceptedInOrder_init (N r : Nat) : AcceptedInOrder N [] (init N r) := by
  refine ⟨by simp [init], by simp [init], ?_, by simp⟩
  intro j _
  unfold State.clientAt init
  simp only [List.getD_eq_getElem?_getD, List.getElem?_replicate]
  split <;> rfl

theorem acceptedInOrder_foldl (N r : Nat) (fds : List Int) (hlen : fds.length ≤ N) :
    AcceptedInOrder N fds (fds.foldl accept_connection (init N r)) := by
  induction fds using List.reverseRecOn with
  | nil => exact acceptedInOrder_init N r
  | append_singleton l a ih =>
    rw [List.foldl_append]
    simp only [List.length_append, List.length_singleton] at hlen
    exact acceptedInOrder_step (ih (by omega)) (by omega) a

/-- C2, as the code has it.  When `fds` are accepted in a row from start-up
with `max_players = N` and `fds` has at most `N` entries, the `k`-th accepted
connection, counted from 1, is given id `N - k + 1` (slot `N - k`), and that
id is what its welcome text carries.  Below `k` counts from 0, so the id is
`N - k`. -/
theorem accept_order_descending (N r : Nat) (fds : List Int) (hlen : fds.length ≤ N)
    (k : Nat) (hk : k < fds.length) :
    some ((fds.foldl accept_connection (init N r)).clientAt (N - 1 - k)).fd = fds[k]? ∧
    ((fds.foldl accept_connection (init N r)).clientAt (N - 1 - k)).id = N - k ∧
    ((fds.foldl accept_connection (init N r)).clientAt (N - 1 - k)).wqueue.head? =
      some { data := msgWelcome (N - k), len := (msgWelcome (N - k)).length, sent := 0 } :=
  (acceptedInOrder_foldl N r fds hlen).placed k hk

theorem accept_order_descending_witness :
    ([5, 6] : List Int).length ≤ 2 ∧ 0 < ([5, 6] : List Int).length ∧
    (some (([5, 6].foldl accept_connection (init 2 41)).clientAt (2 - 1 - 0)).fd
        = ([5, 6] : List Int)[0]? ∧
      (([5, 6].foldl accept_connection (init 2 41)).clientAt (2 - 1 - 0)).id = 2 - 0 ∧
      (([5, 6].foldl accept_connection (init 2 41)).clientAt (2 - 1 - 0)).wqueue.head? =
        some { data := msgWelcome (2 - 0), len := (msgWelcome (2 - 0)).length, sent := 0 }) :=
  ⟨by decide, by decide, accept_order_descending 2 41 [5, 6] (by decide) 0 (by decide)⟩

/-- C2 as stated fails: with `max_players = 2` the first accepted peer
(descriptor 5) is given id 2 and the second (descriptor 6) id 1. -/
theorem accept_order_counterexample :
    (accept_connection (init 2 41) 5).clients.map (fun c => (c.fd, c.id))
      = [(-1, 0), (5, 2)] ∧
    (accept_connection (accept_connection (init 2 41) 5) 6).clients.map (fun c => (c.fd, c.id))
      = [(6, 1), (5, 2)] ∧
    ((accept_connection (init 2 41) 5).clientAt 1).wqueue.map (fun m => m.data)
      = ["Welcome to the game, your id is 2\n".toList] := by
  decide

/-! ## C3: disconnect with promotion -/

theorem promote_loop_avail_nil (fuel : Nat) (s : State) (h : s.avail_ids = []) :
    promote_loop fuel s = s := by
  cases fuel with
  | zero => rfl
  | succ n =>
    unfold promote_loop
    rw [h]
    rfl

theorem clientAt_promote_body (s : State) (new_fd : Int) (rest : List Int) (id : Nat)
    (hslot : id - 1 < s.clients.length) (j : Nat) :
    (promote_body s new_fd rest id).clientAt j =
      if j = id - 1 then
        { fd := new_fd, id := id, rbuf := [], rpos := 0,
          wqueue := [{ data := msgWelcome id, len := (msgWelcome id).length, sent := 0 }],
          wq_cap := INITIAL_QUEUE_SIZE }
      else if (s.clientAt j).fd ≠ -1 ∧ ((s.clientAt j).id : Int) ≠ (id : Int) then
        enqueue_message (s.clientAt j) (msgJoined id) (msgJoined id).length
      else s.clientAt j := by
  unfold promote_body
  simp only
  rw [clientAt_broadcast, clientAt_updated _ s (id - 1) j _ rfl hslot]
  by_cases hj : j = id - 1
  · simp [hj, enqueue_message, Client.wq_size]
  · simp [hj]

/-- C3. In a reachable state with an empty free-id stack and waiting queue
`w1 :: rest`, the disconnect handling of the slot `idx` in use, whose id is
`X = idx + 1`, leaves (a) `w1`, a live descriptor, in slot `idx` with id `X`
and the welcome text for `X` as its whole outbound queue, (b) `rest` as the
waiting queue, (c) every other slot in use with the same descriptor and its
former queue followed by the disconnect notice and then the join notice for
`X`, and (d) an empty free-id stack. -/
theorem disconnect_promotes_first_waiting (s : State) (h : Reachable s) (idx : Nat)
    (hidx : idx < s.max_players) (hact : s.active idx) (hfree : s.avail_ids = [])
    (w1 : Int) (rest : List Int) (hw : s.waitq = w1 :: rest) :
    (s.clientAt idx).id = idx + 1 ∧
    ((handle_disconnect s idx).clientAt idx).fd = w1 ∧ w1 ≠ -1 ∧
    ((handle_disconnect s idx).clientAt idx).id = (s.clientAt idx).id ∧
    ((handle_disconnect s idx).clientAt idx).wqueue =
      [{ data := msgWelcome (s.clientAt idx).id,
         len := (msgWelcome (s.clientAt idx).id).length, sent := 0 }] ∧
    (handle_disconnect s idx).waitq = rest ∧
    (∀ j, j < s.max_players → j ≠ idx → s.active j →
      ((handle_disconnect s idx).clientAt j).fd = (s.clientAt j).fd ∧
      ((handle_disconnect s idx).clientAt j).id = (s.clientAt j).id ∧
      ((handle_disconnect s idx).clientAt j).wqueue = (s.clientAt j).wqueue ++
        [{ data := msgDisconnected (s.clientAt idx).id,
           len := (msgDisconnected (s.clientAt idx).id).length, sent := 0 },
         { data := msgJoined (s.clientAt idx).id,
           len := (msgJoined (s.clientAt idx).id).length, sent := 0 }]) ∧
    (handle_disconnect s idx).avail_ids = [] := by
  have hI := h.inv.1
  have hidx' : idx < s.clients.length := by rw [hI.len]; exact hidx
  have hX : (s.clientAt idx).id = idx + 1 := hI.ids idx hidx hact
  have hw1 : 0 ≤ w1 := hI.waiting w1 (by rw [hw]; simp)
  have hrel_avail : (release_slot s idx).avail_ids = [idx + 1] := by
    rw [avail_release_slot hidx', hfree, hX]; rfl
  have hrel_len : (release_slot s idx).clients.length = s.clients.length := by
    rw [(hI.release_slot_ok hidx hact).len, hI.len]
    unfold release_slot; split <;> rfl
  have hstep : handle_disconnect s idx = promote_body (release_slot s idx) w1 rest (idx + 1) := by
    unfold handle_disconnect promote_waiting
    rw [waitq_release_slot, hw]
    show promote_loop (rest.length + 1) _ = _
    unfold promote_loop
    rw [hrel_avail, waitq_release_slot, hw]
    simp only [List.getLast?_singleton]
    apply promote_loop_avail_nil
    unfold promote_body broadcast
    simp [hrel_avail]
  have hat : ∀ j, (handle_disconnect s idx).clientAt j =
      if j = idx then
        { fd := w1, id := idx + 1, rbuf := [], rpos := 0,
          wqueue := [{ data := msgWelcome (idx + 1), len := (msgWelcome (idx + 1)).length,
                       sent := 0 }],
          wq_cap := INITIAL_QUEUE_SIZE }
      else if ((release_slot s idx).clientAt j).fd ≠ -1 ∧
          (((release_slot s idx).clientAt j).id : Int) ≠ ((idx + 1 : Nat) : Int) then
        enqueue_message ((release_slot s idx).clientAt j) (msgJoined (idx + 1))
          (msgJoined (idx + 1)).length
      else (release_slot s idx).clientAt j := by
    intro j
    rw [hstep, clientAt_promote_body _ _ _ _ (by rw [hrel_len]; simpa using hidx')]
    simp only [Nat.add_sub_cancel]
  refine ⟨hX, ?_, by omega, ?_, ?_, ?_, ?_, ?_⟩
  · rw [hat, if_pos rfl]
  · rw [hat, if_pos rfl, hX]
  · rw [hat, if_pos rfl, hX]
  · rw [hstep]; rfl
  · intro j hj hji hja
    have hja' : (s.clientAt j).fd ≠ -1 := hja
    have hidj : (s.clientAt j).id = j + 1 := hI.ids j hj hja'
    have hne : ((s.clientAt j).id : Int) ≠ ((s.clientAt idx).id : Int) := by
      rw [hidj, hX]; omega
    have hrel : (release_slot s idx).clientAt j =
        enqueue_message (s.clientAt j) (msgDisconnected (s.clientAt idx).id)
          (msgDisconnected (s.clientAt idx).id).length := by
      rw [clientAt_release_slot hidx', if_neg hji, clientAt_broadcast, if_pos ⟨hja', hne⟩]
    have hcond : ((release_slot s idx).clientAt j).fd ≠ -1 ∧
        (((release_slot s idx).clientAt j).id : Int) ≠ ((idx + 1 : Nat) : Int) := by
      rw [hrel]
      refine ⟨hja', ?_⟩
      rw [enqueue_message_id, hidj]; omega
    rw [hat, if_neg hji, if_pos hcond, hrel, hX]
    refine ⟨rfl, rfl, ?_⟩
    rw [enqueue_message_wqueue, enqueue_message_wqueue]
    simp
  · rw [hstep]
    unfold promote_body broadcast
    simp [hrel_avail]

theorem disconnect_promotes_first_waiting_witness :
    Reachable fullHouseWaiting ∧ 0 < fullHouseWaiting.max_players ∧ fullHouseWaiting.active 0 ∧
    fullHouseWaiting.avail_ids = [] ∧ fullHouseWaiting.waitq = 7 :: [8] ∧
    ((fullHouseWaiting.clientAt 0).id = 0 + 1 ∧
    ((handle_disconnect fullHouseWaiting 0).clientAt 0).fd = 7 ∧ (7 : Int) ≠ -1 ∧
    ((handle_disconnect fullHouseWaiting 0).clientAt 0).id = (fullHouseWaiting.clientAt 0).id ∧
    ((handle_disconnect fullHouseWaiting 0).clientAt 0).wqueue =
      [{ data := msgWelcome (fullHouseWaiting.clientAt 0).id,
         len := (msgWelcome (fullHouseWaiting.clientAt 0).id).length, sent := 0 }] ∧
    (handle_disconnect fullHouseWaiting 0).waitq = [8] ∧
    (∀ j, j < fullHouseWaiting.max_players → j ≠ 0 → fullHouseWaiting.active j →
      ((handle_disconnect fullHouseWaiting 0).clientAt j).fd = (fullHouseWaiting.clientAt j).fd ∧
      ((handle_disconnect fullHouseWaiting 0).clientAt j).id = (fullHouseWaiting.clientAt j).id ∧
      ((handle_disconnect fullHouseWaiting 0).clientAt j).wqueue =
        (fullHouseWaiting.clientAt j).wqueue ++
        [{ data := msgDisconnected (fullHouseWaiting.clientAt 0).id,
           len := (msgDisconnected (fullHouseWaiting.clientAt 0).id).length, sent := 0 },
         { data := msgJoined (fullHouseWaiting.clientAt 0).id,
           len := (msgJoined (fullHouseWaiting.clientAt 0).id).length, sent := 0 }]) ∧
    (handle_disconnect fullHouseWaiting 0).avail_ids = []) :=
  ⟨fullHouseWaiting_reachable, by decide, by decide, by decide, by decide,
    disconnect_promotes_first_waiting fullHouseWaiting fullHouseWaiting_reachable 0
      (by decide) (by decide) (by decide) 7 [8] (by decide)⟩

/-! ## C4: routing of an accepted connection -/

theorem clientAt_accept_connection (s : State) (new_fd : Int) (id : Nat)
    (htop : s.avail_ids.getLast? = some id) (hslot : id - 1 < s.clients.length) (j : Nat) :
    (accept_connection s new_fd).clientAt j =
      if j = id - 1 then
        enqueue_message { s.clientAt (id - 1) with fd := new_fd, id := id, rpos := 0, rbuf := [] }
          (msgWelcome id) (msgWelcome id).length
      else if (s.clientAt j).fd ≠ -1 ∧ ((s.clientAt j).id : Int) ≠ (id : Int) then
        enqueue_message (s.clientAt j) (msgJoined id) (msgJoined id).length
      else s.clientAt j := by
  unfold accept_connection
  rw [htop]
  simp only
  rw [clientAt_broadcast, clientAt_updated _ s (id - 1) j _ rfl hslot]
  by_cases hj : j = id - 1
  · simp [hj]
  · simp [hj]

theorem onePlayer_reachable : Reachable onePlayer :=
  .next _ _ (.start 2 41 (by decide)) (by decide)

/-- C4. In a reachable state, accepting the descriptor `new_fd`:
when the free-id stack is not empty and `id` is on top of it, slot `id - 1`
becomes in use with descriptor `new_fd`, id `id` and an outbound queue made of
the welcome text for `id` alone; every other slot in use keeps its descriptor
and id and gets the join notice for `id` appended to its queue; every other
empty slot is untouched; the id leaves the stack and the waiting queue is
unchanged.  When the stack is empty, the state is unchanged except that
`new_fd` is appended to the waiting queue. -/
theorem accept_routing (s : State) (h : Reachable s) (new_fd : Int) (hfd : 0 ≤ new_fd) :
    (∀ id, s.avail_ids.getLast? = some id →
      (accept_connection s new_fd).active (id - 1) ∧
      ((accept_connection s new_fd).clientAt (id - 1)).fd = new_fd ∧
      ((accept_connection s new_fd).clientAt (id - 1)).id = id ∧
      ((accept_connection s new_fd).clientAt (id - 1)).wqueue =
        [{ data := msgWelcome id, len := (msgWelcome id).length, sent := 0 }] ∧
      (∀ j, j ≠ id - 1 → s.active j →
        ((accept_connection s new_fd).clientAt j).fd = (s.clientAt j).fd ∧
        ((accept_connection s new_fd).clientAt j).id = (s.clientAt j).id ∧
        ((accept_connection s new_fd).clientAt j).wqueue = (s.clientAt j).wqueue ++
          [{ data := msgJoined id, len := (msgJoined id).length, sent := 0 }]) ∧
      (∀ j, j ≠ id - 1 → ¬ s.active j →
        (accept_connection s new_fd).clientAt j = s.clientAt j) ∧
      (accept_connection s new_fd).avail_ids = s.avail_ids.dropLast ∧
      (accept_connection s new_fd).waitq = s.waitq) ∧
    (s.avail_ids = [] →
      accept_connection s new_fd = { s with waitq := s.waitq ++ [new_fd] }) := by
  have hI := h.inv.1
  constructor
  · intro id htop
    obtain ⟨_, _, h1, h2, hempty⟩ := hI.top_free_ok htop
    have hslot : id - 1 < s.clients.length := by rw [hI.len]; omega
    have hq : (s.clientAt (id - 1)).wqueue = [] := hI.idle (id - 1) hempty
    have hat := clientAt_accept_connection s new_fd id htop hslot
    have hself : (accept_connection s new_fd).clientAt (id - 1) =
        enqueue_message { s.clientAt (id - 1) with fd := new_fd, id := id, rpos := 0, rbuf := [] }
          (msgWelcome id) (msgWelcome id).length := by
      rw [hat, if_pos rfl]
    refine ⟨?_, ?_, ?_, ?_, ?_, ?_, ?_, ?_⟩
    · unfold State.active
      rw [hself]
      show new_fd ≠ -1
      omega
    · rw [hself]; rfl
    · rw [hself]; rfl
    · rw [hself, enqueue_message_wqueue]
      show (s.clientAt (id - 1)).wqueue ++ _ = _
      rw [hq]; rfl
    · intro j hj hja
      have hja' : (s.clientAt j).fd ≠ -1 := hja
      have hjN : j < s.max_players := by
        by_contra hge
        rw [clientAt_of_le s j (by rw [hI.len]; omega)] at hja'
        exact hja' rfl
      have hidj : (s.clientAt j).id = j + 1 := hI.ids j hjN hja'
      have hne : ((s.clientAt j).id : Int) ≠ (id : Int) := by rw [hidj]; omega
      rw [hat, if_neg hj, if_pos ⟨hja', hne⟩]
      exact ⟨rfl, rfl, enqueue_message_wqueue _ _⟩
    · intro j hj hja
      have hja' : ¬ (s.clientAt j).fd ≠ -1 := hja
      rw [hat, if_neg hj, if_neg (fun hc => hja' hc.1)]
    · unfold accept_connection; rw [htop]; rfl
    · unfold accept_connection; rw [htop]; rfl
  · intro hnil
    unfold accept_connection
    rw [hnil]
    rfl

theorem accept_routing_witness :
    Reachable onePlayer ∧ (0 : Int) ≤ 6 ∧
    ((∀ id, onePlayer.avail_ids.getLast? = some id →
      (accept_connection onePlayer 6).active (id - 1) ∧
      ((accept_connection onePlayer 6).clientAt (id - 1)).fd = 6 ∧
      ((accept_connection onePlayer 6).clientAt (id - 1)).id = id ∧
      ((accept_connection onePlayer 6).clientAt (id - 1)).wqueue =
        [{ data := msgWelcome id, len := (msgWelcome id).length, sent := 0 }] ∧
      (∀ j, j ≠ id - 1 → onePlayer.active j →
        ((accept_connection onePlayer 6).clientAt j).fd = (onePlayer.clientAt j).fd ∧
        ((accept_connection onePlayer 6).clientAt j).id = (onePlayer.clientAt j).id ∧
        ((accept_connection onePlayer 6).clientAt j).wqueue = (onePlayer.clientAt j).wqueue ++
          [{ data := msgJoined id, len := (msgJoined id).length, sent := 0 }]) ∧
      (∀ j, j ≠ id - 1 → ¬ onePlayer.active j →
        (accept_connection onePlayer 6).clientAt j = onePlayer.clientAt j) ∧
      (accept_connection onePlayer 6).avail_ids = onePlayer.avail_ids.dropLast ∧
      (accept_connection onePlayer 6).waitq = onePlayer.waitq) ∧
    (onePlayer.avail_ids = [] →
      accept_connection onePlayer 6 = { onePlayer with waitq := onePlayer.waitq ++ [6] })) :=
  ⟨onePlayer_reachable, by decide, accept_routing onePlayer onePlayer_reachable 6 (by decide)⟩

/-! ## C5: who receives the guess notice -/

theorem lt_length_of_active {s : State} {j : Nat} (h : s.active j) : j < s.clients.length := by
  by_contra hge
  have hb := clientAt_of_le s j (by omega)
  unfold State.active at h
  rw [hb] at h
  exact h rfl

theorem guess_notice_target (s : State) (i : Nat) (g : Int) :
    (guess_notice s i g).target = s.target := rfl

theorem clientAt_guess_notice {s : State} (i : Nat) (g : Int) {j : Nat} (h : s.active j) :
    (guess_notice s i g).clientAt j =
      enqueue_message (s.clientAt j) (msgGuessed (s.clientAt i).id g)
        (msgGuessed (s.clientAt i).id g).length := by
  unfold guess_notice
  rw [clientAt_broadcast, if_pos ⟨h, by omega⟩]

theorem clientAt_enqueue_feedback {s : State} (i : Nat) (g : Int) (j : Nat)
    (hi : i < s.clients.length) :
    (enqueue_feedback s i g).clientAt j =
      if j = i then
        enqueue_message (s.clientAt i)
          (if g > s.target then msgTooHigh g else msgTooLow g)
          (if g > s.target then msgTooHigh g else msgTooLow g).length
      else s.clientAt j := by
  unfold enqueue_feedback
  exact clientAt_update_lt s i j _ hi

/-- C5, as the code has it.  The notice `Player X guessed G` of a guess made
on slot `i` (id `X`) is broadcast with `exclude_id = -1`, so it is appended to
the outbound queue of every slot in use, the guesser's own included; and when
the guess is not the target, evaluating the line leaves the guesser's queue as
its former queue, then the notice, then the feedback. -/
theorem guess_notice_reaches_guesser (s : State) (i r : Nat) (guess : Int) (hact : s.active i) :
    (∀ j, s.active j →
      ((guess_notice s i guess).clientAt j).wqueue = (s.clientAt j).wqueue ++
        [{ data := msgGuessed (s.clientAt i).id guess,
           len := (msgGuessed (s.clientAt i).id guess).length, sent := 0 }]) ∧
    ((guess_notice s i guess).clientAt i).wqueue = (s.clientAt i).wqueue ++
        [{ data := msgGuessed (s.clientAt i).id guess,
           len := (msgGuessed (s.clientAt i).id guess).length, sent := 0 }] ∧
    (guess ≠ s.target → ∀ line ptr, line.length ≠ 0 → sscanf_d line = some guess →
      ((decode_loop i r s [(line, ptr)]).state.clientAt i).wqueue = (s.clientAt i).wqueue ++
        [{ data := msgGuessed (s.clientAt i).id guess,
           len := (msgGuessed (s.clientAt i).id guess).length, sent := 0 },
         { data := feedbackText s.target guess,
           len := (feedbackText s.target guess).length, sent := 0 }]) := by
  have hall : ∀ j, s.active j →
      ((guess_notice s i guess).clientAt j).wqueue = (s.clientAt j).wqueue ++
        [{ data := msgGuessed (s.clientAt i).id guess,
           len := (msgGuessed (s.clientAt i).id guess).length, sent := 0 }] := by
    intro j hj
    rw [clientAt_guess_notice i guess hj, enqueue_message_wqueue]
  refine ⟨hall, hall i hact, ?_⟩
  intro hne line ptr hline hscan
  have hlen : i < (guess_notice s i guess).clients.length := by
    unfold guess_notice
    rw [broadcast_length]
    exact lt_length_of_active hact
  unfold decode_loop
  rw [if_neg hline]
  simp only [hscan, guess_notice_target, if_neg hne]
  unfold decode_loop
  simp only
  rw [clientAt_enqueue_feedback i guess i hlen, if_pos rfl, enqueue_message_wqueue,
    hall i hact, guess_notice_target]
  simp [feedbackText]

theorem guess_notice_reaches_guesser_witness :
    fullHouse.active 0 ∧
    ((∀ j, fullHouse.active j →
      ((guess_notice fullHouse 0 5).clientAt j).wqueue = (fullHouse.clientAt j).wqueue ++
        [{ data := msgGuessed (fullHouse.clientAt 0).id 5,
           len := (msgGuessed (fullHouse.clientAt 0).id 5).length, sent := 0 }]) ∧
    ((guess_notice fullHouse 0 5).clientAt 0).wqueue = (fullHouse.clientAt 0).wqueue ++
        [{ data := msgGuessed (fullHouse.clientAt 0).id 5,
           len := (msgGuessed (fullHouse.clientAt 0).id 5).length, sent := 0 }] ∧
    ((5 : Int) ≠ fullHouse.target → ∀ line ptr, line.length ≠ 0 → sscanf_d line = some 5 →
      ((decode_loop 0 0 fullHouse [(line, ptr)]).state.clientAt 0).wqueue =
        (fullHouse.clientAt 0).wqueue ++
        [{ data := msgGuessed (fullHouse.clientAt 0).id 5,
           len := (msgGuessed (fullHouse.clientAt 0).id 5).length, sent := 0 },
         { data := feedbackText fullHouse.target 5,
           len := (feedbackText fullHouse.target 5).length, sent := 0 }])) :=
  ⟨by decide, guess_notice_reaches_guesser fullHouse 0 0 5 (by decide)⟩

/-- C5 as stated fails: with both seats taken and target 42, the guess `5`
sent by player 1 (slot 0) puts `Player 1 guessed 5` on player 1's own queue,
ahead of the feedback. -/
theorem guess_notice_counterexample :
    fullHouse.target = 42 ∧
    ((read_handling fullHouse 0 "5\n".toList 0).1.clientAt 0).wqueue.map (fun m => m.data) =
      ["Welcome to the game, your id is 1\n".toList, "Player 1 guessed 5\n".toList,
       "The guess 5 is too low\n".toList] ∧
    ((read_handling fullHouse 0 "5\n".toList 0).1.clientAt 1).wqueue.map (fun m => m.data) =
      ["Welcome to the game, your id is 2\n".toList, "Player 1 joined the game\n".toList,
       "Player 1 guessed 5\n".toList] := by
  decide

/-! ## C6: what happens to an unterminated tail -/

/-- C6 on the code.  With both seats taken and target 42, player 1 (slot 0)
sends `4` in one read and `2\n` in the next.  The first read already evaluates
the unterminated `4` as the guess 4 and leaves the buffer empty (`strsep`
returns the tail as a token and sets `ptr` to `NULL`, so the code takes
`rpos = 0`); the second read evaluates the guess 2.  The guess 42 is never
evaluated: nothing is written directly and the target and both seats stay as
they were. -/
theorem unterminated_tail_is_evaluated :
    fullHouse.target = 42 ∧
    strsepAll "4".toList = [("4".toList, none)] ∧
    ((read_handling fullHouse 0 "4".toList 0).1.clientAt 0).wqueue.map (fun m => m.data) =
      ["Welcome to the game, your id is 1\n".toList, "Player 1 guessed 4\n".toList,
       "The guess 4 is too low\n".toList] ∧
    ((read_handling fullHouse 0 "4".toList 0).1.clientAt 0).rpos = 0 ∧
    ((read_handling fullHouse 0 "4".toList 0).1.clientAt 0).rbuf = [] ∧
    ((read_handling (read_handling fullHouse 0 "4".toList 0).1 0 "2\n".toList 0).1.clientAt 0
        ).wqueue.map (fun m => m.data) =
      ["Welcome to the game, your id is 1\n".toList, "Player 1 guessed 4\n".toList,
       "The guess 4 is too low\n".toList, "Player 1 guessed 2\n".toList,
       "The guess 2 is too low\n".toList] ∧
    (read_handling fullHouse 0 "4".toList 0).2 = [] ∧
    (read_handling (read_handling fullHouse 0 "4".toList 0).1 0 "2\n".toList 0).2 = [] ∧
    (read_handling (read_handling fullHouse 0 "4".toList 0).1 0 "2\n".toList 0).1.target = 42 ∧
    (read_handling (read_handling fullHouse 0 "4".toList 0).1 0 "2\n".toList 0).1.clients.map
      (fun c => c.fd) = [6, 5] := by
  decide

/-! ## C8: which lines are guesses -/

theorem scan_int_of_range {v : Int} (hlo : INT_MIN ≤ v) (hhi : v ≤ INT_MAX) : scan_int v = v := by
  unfold INT_MIN at hlo
  unfold INT_MAX at hhi
  unfold scan_int strtol_clamp to_int LONG_MIN LONG_MAX
  rw [if_neg (by omega), if_neg (by omega)]
  omega

theorem isdigit_not_isspace {c : Char} (h : isdigit c = true) : isspace c = false := by
  simp only [isdigit, isspace, Bool.and_eq_true, decide_eq_true_eq, Bool.or_eq_false_iff,
    decide_eq_false_iff_not, Bool.and_eq_false_iff, not_le] at h ⊢
  omega

theorem isdigit_ne_minus {c : Char} (h : isdigit c = true) : c ≠ Char.ofNat 45 := by
  intro hc
  subst hc
  revert h
  decide

theorem isdigit_ne_plus {c : Char} (h : isdigit c = true) : c ≠ Char.ofNat 43 := by
  intro hc
  subst hc
  revert h
  decide

theorem dropWhile_isspace_append (ws s : List Char) (hws : ∀ c ∈ ws, isspace c = true)
    (hs : ∀ c ∈ s.head?, isspace c = false) : (ws ++ s).dropWhile isspace = s := by
  induction ws with
  | nil =>
    cases s with
    | nil => rfl
    | cons a l =>
      have := hs a (by simp)
      simp [List.dropWhile, this]
  | cons a l ih =>
    have ha := hws a (by simp)
    simp only [List.cons_append, List.dropWhile, ha]
    exact ih (fun c hc => hws c (by simp [hc]))

theorem takeWhile_isdigit_append (ds rest : List Char) (hds : ∀ c ∈ ds, isdigit c = true)
    (hrest : ∀ c ∈ rest.head?, isdigit c = false) : (ds ++ rest).takeWhile isdigit = ds := by
  induction ds with
  | nil =>
    cases rest with
    | nil => rfl
    | cons a l =>
      have := hrest a (by simp)
      simp [List.takeWhile, this]
  | cons a l ih =>
    have ha := hds a (by simp)
    show (a :: (l ++ rest)).takeWhile isdigit = a :: l
    rw [List.takeWhile_cons, if_pos ha, ih (fun c hc => hds c (by simp [hc]))]

theorem sscanf_d_of_integerPrefix {line : List Char} {v : Int} (h : IntegerPrefix line v) :
    sscanf_d line = some v := by
  obtain ⟨ws, sign, ds, rest, rfl, hws, hsign, hne, hds, hrest, rfl⟩ := h
  obtain ⟨d, ds', rfl⟩ : ∃ d ds', ds = d :: ds' := by
    cases ds with
    | nil => exact absurd rfl hne
    | cons d ds' => exact ⟨d, ds', rfl⟩
  have hd : isdigit d = true := hds d (by simp)
  have htw := takeWhile_isdigit_append (d :: ds') rest hds hrest
  unfold sscanf_d
  rcases hsign with hs | hs | hs
  · subst hs
    have hdrop : (ws ++ ([] ++ (d :: ds' ++ rest))).dropWhile isspace = d :: ds' ++ rest :=
      dropWhile_isspace_append ws _ hws (by
        intro c hc
        simp at hc
        subst hc
        exact isdigit_not_isspace hd)
    simp only [hdrop]
    have h1 : ¬ (d = Char.ofNat 45) := isdigit_ne_minus hd
    have h2 : ¬ (d = Char.ofNat 43) := isdigit_ne_plus hd
    simp only [List.cons_append, List.head?_cons, Option.some.injEq, h1, h2, or_self, if_false]
    rw [← List.cons_append, htw]
    simp [MINUS]
  · subst hs
    have hdrop : (ws ++ ([PLUS] ++ (d :: ds' ++ rest))).dropWhile isspace =
        [PLUS] ++ (d :: ds' ++ rest) :=
      dropWhile_isspace_append ws _ hws (by
        intro c hc
        simp at hc
        subst hc
        decide)
    simp only [hdrop]
    simp only [List.singleton_append, List.head?_cons, PLUS, Option.some.injEq, or_true,
      if_true, List.tail_cons]
    rw [htw]
    simp [MINUS]
  · subst hs
    have hdrop : (ws ++ ([MINUS] ++ (d :: ds' ++ rest))).dropWhile isspace =
        [MINUS] ++ (d :: ds' ++ rest) :=
      dropWhile_isspace_append ws _ hws (by
        intro c hc
        simp at hc
        subst hc
        decide)
    simp only [hdrop]
    simp only [List.singleton_append, List.head?_cons, MINUS, Option.some.injEq, true_or,
      if_true, List.tail_cons]
    rw [htw]
    simp

theorem integerPrefix_of_sscanf_d {line : List Char} {v : Int} (h : sscanf_d line = some v) :
    IntegerPrefix line v := by
  unfold sscanf_d at h
  simp only at h
  have hsplit : line = line.takeWhile isspace ++ line.dropWhile isspace :=
    (List.takeWhile_append_dropWhile _ _).symm
  have hws : ∀ c ∈ line.takeWhile isspace, isspace c = true :=
    fun c hc => (List.mem_takeWhile_imp hc)
  generalize line.dropWhile isspace = s at h hsplit
  generalize line.takeWhile isspace = ws at hsplit hws
  have hdigits : ∀ t : List Char, (∀ c ∈ t.takeWhile isdigit, isdigit c = true) ∧
      (∀ c ∈ (t.dropWhile isdigit).head?, isdigit c = false) ∧
      t = t.takeWhile isdigit ++ t.dropWhile isdigit := by
    intro t
    refine ⟨fun c hc => List.mem_takeWhile_imp hc, ?_, (List.takeWhile_append_dropWhile _ _).symm⟩
    intro c hc
    have := List.head?_dropWhile_not isdigit t
    rw [Option.mem_def.1 hc] at this
    simpa using this
  by_cases hsign : s.head? = some (Char.ofNat 45) ∨ s.head? = some (Char.ofNat 43)
  · rw [if_pos hsign] at h
    by_cases hlen : (s.tail.takeWhile isdigit).length = 0
    · rw [if_pos hlen] at h
      exact absurd h (by simp)
    rw [if_neg hlen] at h
    have hv := Option.some.inj h
    obtain ⟨a, t, rfl⟩ : ∃ a t, s = a :: t := by
      cases s with
      | nil => simp at hsign
      | cons a t => exact ⟨a, t, rfl⟩
    simp only [List.tail_cons] at hlen hv
    obtain ⟨hd1, hd2, hd3⟩ := hdigits t
    refine ⟨ws, [a], t.takeWhile isdigit, t.dropWhile isdigit, ?_, hws, ?_, ?_, hd1, hd2, ?_⟩
    · rw [← hd3]; exact hsplit
    · simp only [List.head?_cons, Option.some.injEq] at hsign
      rcases hsign with hs | hs
      · right; right; rw [hs]; rfl
      · right; left; rw [hs]; rfl
    · intro hnil; rw [hnil] at hlen; simp at hlen
    · rw [← hv]
      simp only [List.head?_cons, Option.some.injEq, MINUS, List.cons.injEq, and_true]
      by_cases ha : a = Char.ofNat 45
      · simp [ha]
      · simp [ha]
  · rw [if_neg hsign] at h
    by_cases hlen : (s.takeWhile isdigit).length = 0
    · rw [if_pos hlen] at h
      exact absurd h (by simp)
    rw [if_neg hlen] at h
    have hv := Option.some.inj h
    obtain ⟨hd1, hd2, hd3⟩ := hdigits s
    refine ⟨ws, [], s.takeWhile isdigit, s.dropWhile isdigit, ?_, hws, Or.inl rfl, ?_,
      hd1, hd2, ?_⟩
    · rw [List.nil_append, ← hd3]; exact hsplit
    · intro hnil; rw [hnil] at hlen; simp at hlen
    · rw [← hv]
      have hnm : ¬ s.head? = some (Char.ofNat 45) := fun hc => hsign (Or.inl hc)
      simp [hnm, MINUS]

theorem eval_guess_target (i : Nat) (s : State) (g : Int) : (eval_guess i s g).target = s.target :=
  rfl

theorem decode_loop_cons_skip (i r : Nat) (s : State) (line : List Char)
    (p : Option (List Char)) (more : List (List Char × Option (List Char)))
    (h : parsedGuess line = none) :
    decode_loop i r s ((line, p) :: more) = decode_loop i r s more := by
  unfold parsedGuess at h
  rw [decode_loop]
  split
  · rfl
  · rename_i hlen
    rw [if_neg hlen] at h
    rw [h]

theorem decode_loop_cons_lose (i r : Nat) (s : State) (line : List Char)
    (p : Option (List Char)) (more : List (List Char × Option (List Char))) (g : Int)
    (h : parsedGuess line = some g) (hg : g ≠ s.target) :
    decode_loop i r s ((line, p) :: more) = decode_loop i r (eval_guess i s g) more := by
  unfold parsedGuess at h
  rw [decode_loop]
  split
  · rename_i hlen; rw [if_pos hlen] at h; exact absurd h (by simp)
  · rename_i hlen
    rw [if_neg hlen] at h
    rw [h]
    simp only [guess_notice_target, if_neg hg]
    rfl

theorem decode_loop_cons_win (i r : Nat) (s : State) (line : List Char)
    (p : Option (List Char)) (more : List (List Char × Option (List Char)))
    (h : parsedGuess line = some s.target) :
    decode_loop i r s ((line, p) :: more) = win_result i r s s.target p := by
  unfold parsedGuess at h
  rw [decode_loop]
  split
  · rename_i hlen; rw [if_pos hlen] at h; exact absurd h (by simp)
  · rename_i hlen
    rw [if_neg hlen] at h
    rw [h]
    simp only [guess_notice_target, if_true]
    rfl

theorem decode_loop_append_losing (i r : Nat) (pre more : List (List Char × Option (List Char))) :
    ∀ s : State, (∀ tok ∈ pre, parsedGuess tok.1 ≠ some s.target) →
      decode_loop i r s (pre ++ more) =
        decode_loop i r ((pre.filterMap (fun tok => parsedGuess tok.1)).foldl (eval_guess i) s)
          more := by
  induction pre with
  | nil => intro s _; rfl
  | cons tok pre ih =>
    intro s hpre
    obtain ⟨line, p⟩ := tok
    have hrest : ∀ tok ∈ pre, parsedGuess tok.1 ≠ some s.target :=
      fun tok htok => hpre tok (by simp [htok])
    cases hg : parsedGuess line with
    | none =>
      rw [List.cons_append, decode_loop_cons_skip i r s line p _ hg, ih s hrest]
      simp [List.filterMap_cons, hg]
    | some g =>
      have hne : g ≠ s.target := by
        intro he
        exact hpre (line, p) (by simp) (by rw [hg, he])
      rw [List.cons_append, decode_loop_cons_lose i r s line p _ g hg hne,
        ih (eval_guess i s g) (by rw [eval_guess_target]; exact hrest)]
      simp [List.filterMap_cons, hg]

/-- C8, as the code has it.  A line is evaluated as a guess exactly when it
has an integer prefix: optional white space, an optional sign, at least one
digit.  The guess is the `int` stored for the value of that prefix, which is
the value itself whenever it fits an `int`, and what follows the digits is
disregarded.  Such a line with stored value `v` is handled as the guess `v`
(the win branch when `v` is the target, notice and feedback otherwise); a line
with no integer prefix is skipped with the state untouched. -/
theorem guess_is_leading_integer (i r : Nat) (s : State) (line : List Char)
    (p : Option (List Char)) (more : List (List Char × Option (List Char))) :
    (∀ v, sscanf_d line = some v ↔ IntegerPrefix line v) ∧
    (∀ v, IntegerPrefix line v → v ≠ s.target →
      decode_loop i r s ((line, p) :: more) = decode_loop i r (eval_guess i s v) more) ∧
    (∀ v, IntegerPrefix line v → v = s.target →
      decode_loop i r s ((line, p) :: more) = win_result i r s v p) ∧
    ((¬ ∃ v, IntegerPrefix line v) →
      decode_loop i r s ((line, p) :: more) = decode_loop i r s more) ∧
    (∀ x : Int, INT_MIN ≤ x → x ≤ INT_MAX → scan_int x = x) := by
  have hnonempty : ∀ v, IntegerPrefix line v → line.length ≠ 0 := by
    rintro v ⟨ws, sign, ds, rest, rfl, _, _, hne, _⟩
    cases ds with
    | nil => exact absurd rfl hne
    | cons d ds' => simp
  have hparsed : ∀ v, IntegerPrefix line v → parsedGuess line = some v := by
    intro v hv
    unfold parsedGuess
    rw [if_neg (hnonempty v hv)]
    exact sscanf_d_of_integerPrefix hv
  refine ⟨fun v => ⟨integerPrefix_of_sscanf_d, sscanf_d_of_integerPrefix⟩, ?_, ?_, ?_,
    fun x hlo hhi => scan_int_of_range hlo hhi⟩
  · intro v hv hne
    exact decode_loop_cons_lose i r s line p more v (hparsed v hv) hne
  · intro v hv he
    subst he
    exact decode_loop_cons_win i r s line p more (hparsed _ hv)
  · intro hno
    apply decode_loop_cons_skip
    unfold parsedGuess
    split
    · rfl
    · cases hs : sscanf_d line with
      | none => rfl
      | some v => exact absurd ⟨v, integerPrefix_of_sscanf_d hs⟩ hno

theorem integerPrefix_12abc : IntegerPrefix "12abc".toList 12 :=
  integerPrefix_of_sscanf_d (by decide)

theorem guess_is_leading_integer_witness :
    IntegerPrefix "12abc".toList 12 ∧ (12 : Int) ≠ fullHouse.target ∧
    sscanf_d " -7x".toList = some (-7) ∧
    sscanf_d "2147483647".toList = some 2147483647 ∧
    sscanf_d "4294967338".toList = some 42 ∧
    sscanf_d "2147483648".toList = some (-2147483648) ∧
    decode_loop 0 0 fullHouse [("12abc".toList, some [])] =
      decode_loop 0 0 (eval_guess 0 fullHouse 12) [] :=
  ⟨integerPrefix_12abc, by decide, by decide, by decide, by decide, by decide,
    (guess_is_leading_integer 0 0 fullHouse "12abc".toList (some []) []).2.1 12
      integerPrefix_12abc (by decide)⟩

/-- C8 as stated fails: the line `12abc` is not a base-10 integer as a whole,
yet it is evaluated as the guess 12: with both seats taken and target 42,
player 1 gets the notice and the feedback for 12 on its queue and player 2 the
notice. -/
theorem whole_line_counterexample :
    sscanf_d "12abc".toList = some 12 ∧
    ((read_handling fullHouse 0 "12abc\n".toList 0).1.clientAt 0).wqueue.map (fun m => m.data) =
      ["Welcome to the game, your id is 1\n".toList, "Player 1 guessed 12\n".toList,
       "The guess 12 is too low\n".toList] ∧
    ((read_handling fullHouse 0 "12abc\n".toList 0).1.clientAt 1).wqueue.map (fun m => m.data) =
      ["Welcome to the game, your id is 2\n".toList, "Player 1 joined the game\n".toList,
       "Player 1 guessed 12\n".toList] := by
  decide

/-! ## C7: a chunk of complete lines -/

theorem strsepAll_eq_strsep (raw : List Char) :
    strsepAll raw = strsep raw ::
      (match (strsep raw).2 with
       | none => []
       | some rest => strsepAll rest) := by
  induction raw with
  | nil => rfl
  | cons c cs ih =>
    rw [strsepAll, strsep]
    by_cases h0 : c = NUL
    · simp [h0]
    · by_cases h1 : c = NL
      · have hne : ¬ NL = NUL := by decide
        subst h1
        simp only [if_neg hne, if_true]
      · simp only [h0, h1, if_false]
        rw [ih]

theorem strsepAll_line (l rest : List Char) (hl : ∀ c ∈ l, c ≠ NL ∧ c ≠ NUL) :
    strsepAll (l ++ NL :: rest) = (l, some rest) :: strsepAll rest := by
  induction l with
  | nil =>
    show strsepAll (NL :: rest) = _
    have : ¬ NL = NUL := by decide
    rw [strsepAll, if_neg this, if_pos rfl]
  | cons c cs ih =>
    have hc := hl c (by simp)
    show strsepAll (c :: (cs ++ NL :: rest)) = _
    rw [strsepAll, if_neg hc.2, if_neg hc.1, ih (fun c hc => hl c (by simp [hc]))]

theorem strsepAll_joinLines (lines : List (List Char)) (rest : List Char)
    (h : ∀ l ∈ lines, ∀ c ∈ l, c ≠ NL ∧ c ≠ NUL) :
    strsepAll (joinLines lines ++ rest) = lineTokens lines rest ++ strsepAll rest := by
  induction lines with
  | nil => rfl
  | cons l ls ih =>
    show strsepAll ((l ++ NL :: joinLines ls) ++ rest) = _
    rw [List.append_assoc, List.cons_append, strsepAll_line l _ (h l (by simp)),
      ih (fun l hl => h l (by simp [hl]))]
    rfl

theorem filterMap_lineTokens (f : List Char → Option Int) (lines : List (List Char))
    (rest : List Char) :
    (lineTokens lines rest).filterMap (fun tok => f tok.1) = lines.filterMap f := by
  induction lines with
  | nil => rfl
  | cons l ls ih =>
    simp only [lineTokens, List.filterMap_cons]
    rw [ih]

theorem mem_lineTokens {lines : List (List Char)} {rest : List Char}
    {tok : List Char × Option (List Char)} (h : tok ∈ lineTokens lines rest) : tok.1 ∈ lines := by
  induction lines with
  | nil => simp [lineTokens] at h
  | cons l ls ih =>
    simp only [lineTokens, List.mem_cons] at h
    rcases h with h | h
    · rw [h]; simp
    · simp [ih h]

theorem integerPrefix_of_wholeInt {line : List Char} {v : Int} (h : wholeInt line = some v) :
    IntegerPrefix line (scan_int v) := by
  unfold wholeInt at h
  simp only at h
  by_cases hsign : line.head? = some MINUS ∨ line.head? = some PLUS
  · rw [if_pos hsign] at h
    by_cases hbody : line.tail ≠ [] ∧ line.tail.all isdigit = true
    · rw [if_pos hbody] at h
      have hv := Option.some.inj h
      obtain ⟨a, t, rfl⟩ : ∃ a t, line = a :: t := by
        cases line with
        | nil => simp at hsign
        | cons a t => exact ⟨a, t, rfl⟩
      simp only [List.tail_cons] at hbody hv
      refine ⟨[], [a], t, [], by simp, by simp, ?_, hbody.1, ?_, by simp, ?_⟩
      · simp only [List.head?_cons, Option.some.injEq] at hsign
        rcases hsign with hs | hs
        · right; right; rw [hs]
        · right; left; rw [hs]
      · intro c hc
        exact (List.all_eq_true.1 hbody.2) c hc
      · rw [← hv]
        simp
    · rw [if_neg hbody] at h
      exact absurd h (by simp)
  · rw [if_neg hsign] at h
    by_cases hbody : line ≠ [] ∧ line.all isdigit = true
    · rw [if_pos hbody] at h
      have hv := Option.some.inj h
      refine ⟨[], [], line, [], by simp, by simp, Or.inl rfl, hbody.1, ?_, by simp, ?_⟩
      · intro c hc
        exact (List.all_eq_true.1 hbody.2) c hc
      · rw [← hv]
        have : ¬ line.head? = some MINUS := fun hc => hsign (Or.inl hc)
        simp [this]
    · rw [if_neg hbody] at h
      exact absurd h (by simp)

theorem mem_of_integerPrefix {line : List Char} {v : Int} (h : IntegerPrefix line v) :
    ∃ c ∈ line, isdigit c = true := by
  obtain ⟨ws, sign, ds, rest, rfl, _, _, hne, hds, _⟩ := h
  cases ds with
  | nil => exact absurd rfl hne
  | cons d ds' => exact ⟨d, by simp, hds d (by simp)⟩

theorem parsedGuess_plainLine {target : Int} {l : List Char} (h : PlainLine target l) :
    parsedGuess l = wholeInt l ∧ parsedGuess l ≠ some target := by
  have hdf : (∀ c ∈ l, isdigit c = false) → parsedGuess l = none ∧ wholeInt l = none := by
    intro hno
    constructor
    · unfold parsedGuess
      split
      · rfl
      · cases hs : sscanf_d l with
        | none => rfl
        | some v =>
          obtain ⟨c, hc, hd⟩ := mem_of_integerPrefix (integerPrefix_of_sscanf_d hs)
          rw [hno c hc] at hd
          exact absurd hd (by simp)
    · cases hs : wholeInt l with
      | none => rfl
      | some v =>
        obtain ⟨c, hc, hd⟩ := mem_of_integerPrefix (integerPrefix_of_wholeInt hs)
        rw [hno c hc] at hd
        exact absurd hd (by simp)
  rcases h with h | h | ⟨v, hv, hlo, hhi, hne⟩
  · subst h
    exact ⟨rfl, by simp [parsedGuess]⟩
  · obtain ⟨h1, h2⟩ := hdf h
    rw [h1, h2]
    exact ⟨rfl, by simp⟩
  · have hp := integerPrefix_of_wholeInt hv
    have hs := sscanf_d_of_integerPrefix hp
    rw [scan_int_of_range hlo hhi] at hs
    have hlen : l.length ≠ 0 := by
      obtain ⟨c, hc, _⟩ := mem_of_integerPrefix hp
      intro h0
      rw [List.length_eq_zero] at h0
      rw [h0] at hc
      simp at hc
    have : parsedGuess l = some v := by
      unfold parsedGuess
      rw [if_neg hlen, hs]
    rw [this, hv]
    exact ⟨rfl, fun hc => hne (Option.some.inj hc)⟩

theorem set_of_getElem? {α : Type} (l : List α) (i : Nat) (a : α) (h : l[i]? = some a) :
    l.set i a = l := by
  induction l generalizing i with
  | nil => rfl
  | cons b l ih =>
    cases i with
    | zero => simp at h; simp [h]
    | succ n => simp at h; simp [ih n h]

theorem map_updateClient (cs : List Client) (i : Nat) (f u : Client → Client)
    (h : ∀ c, f (u c) = u (f c)) :
    (updateClient cs i u).map f = updateClient (cs.map f) i u := by
  unfold updateClient
  rw [List.getElem?_map]
  cases cs[i]? with
  | none => rfl
  | some c => simp [List.map_set, h]

theorem updateClient_updateClient (cs : List Client) (i : Nat) (u v : Client → Client) :
    updateClient (updateClient cs i u) i v = updateClient cs i (fun c => v (u c)) := by
  unfold updateClient
  cases hc : cs[i]? with
  | none => simp [hc]
  | some c =>
    have hlt : i < cs.length := by
      by_contra hge
      rw [List.getElem?_eq_none (by omega)] at hc
      exact absurd hc (by simp)
    simp [List.getElem?_set_self hlt, List.set_set]

theorem updateClient_self (cs : List Client) (i : Nat) (u : Client → Client)
    (h : ∀ c, cs[i]? = some c → u c = c) : updateClient cs i u = cs := by
  unfold updateClient
  cases hc : cs[i]? with
  | none => rfl
  | some c =>
    simp only
    rw [h c hc]
    exact set_of_getElem? cs i c hc

/-- A change `u` of `clients[i]` that leaves `fd` and `id` alone and commutes
with `enqueue_message` commutes with the evaluation of a guess on slot `i`. -/
theorem eval_guess_update (s : State) (i : Nat) (g : Int) (u : Client → Client)
    (hfd : ∀ c, (u c).fd = c.fd) (hid : ∀ c, (u c).id = c.id)
    (henq : ∀ c m n, enqueue_message (u c) m n = u (enqueue_message c m n)) :
    eval_guess i { s with clients := updateClient s.clients i u } g =
      { eval_guess i s g with clients := updateClient (eval_guess i s g).clients i u } := by
  have hidi : (State.clientAt { s with clients := updateClient s.clients i u } i).id =
      (s.clientAt i).id := by
    rw [clientAt_update]
    split
    · exact hid _
    · rfl
  unfold eval_guess enqueue_feedback guess_notice
  rw [hidi]
  unfold broadcast
  simp only
  rw [map_updateClient _ _ _ _ (by
    intro c
    simp only [hfd, hid]
    split
    · exact henq _ _ _
    · rfl)]
  rw [updateClient_updateClient, updateClient_updateClient]
  congr 2
  funext c
  exact henq _ _ _

theorem foldl_eval_guess_update (i : Nat) (u : Client → Client)
    (hfd : ∀ c, (u c).fd = c.fd) (hid : ∀ c, (u c).id = c.id)
    (henq : ∀ c m n, enqueue_message (u c) m n = u (enqueue_message c m n))
    (gs : List Int) : ∀ s : State,
    gs.foldl (eval_guess i) { s with clients := updateClient s.clients i u } =
      { gs.foldl (eval_guess i) s with
        clients := updateClient (gs.foldl (eval_guess i) s).clients i u } := by
  induction gs with
  | nil => intro s; rfl
  | cons g gs ih =>
    intro s
    simp only [List.foldl_cons]
    rw [eval_guess_update s i g u hfd hid henq]
    exact ih (eval_guess i s g)

theorem eval_guess_buf (i : Nat) (s : State) (g : Int) (j : Nat) :
    ((eval_guess i s g).clientAt j).rpos = (s.clientAt j).rpos ∧
    ((eval_guess i s g).clientAt j).rbuf = (s.clientAt j).rbuf := by
  unfold eval_guess
  rw [enqueue_feedback_rpos, enqueue_feedback_rbuf]
  exact ⟨broadcast_rpos _ _ _ _, broadcast_rbuf _ _ _ _⟩

theorem foldl_eval_guess_buf (i : Nat) (gs : List Int) (j : Nat) : ∀ s : State,
    ((gs.foldl (eval_guess i) s).clientAt j).rpos = (s.clientAt j).rpos ∧
    ((gs.foldl (eval_guess i) s).clientAt j).rbuf = (s.clientAt j).rbuf := by
  induction gs with
  | nil => intro s; exact ⟨rfl, rfl⟩
  | cons g gs ih =>
    intro s
    simp only [List.foldl_cons]
    rw [(ih (eval_guess i s g)).1, (ih (eval_guess i s g)).2]
    exact eval_guess_buf i s g j

theorem foldl_eval_guess_target (i : Nat) (gs : List Int) : ∀ s : State,
    (gs.foldl (eval_guess i) s).target = s.target := by
  induction gs with
  | nil => intro s; rfl
  | cons g gs ih => intro s; simp only [List.foldl_cons]; rw [ih]; rfl

/-- The read path on a slot with an empty buffer, for bytes none of whose
tokens is a guess equal to the target: the guesses are evaluated one after the
other, nothing is written directly, and the buffer is empty again. -/
theorem read_handling_losing (s : State) (i : Nat) (bytes : List Char) (r : Nat)
    (hpos : (s.clientAt i).rpos = 0) (hbuf : (s.clientAt i).rbuf = [])
    (hlose : ∀ tok ∈ strsepAll bytes, parsedGuess tok.1 ≠ some s.target) :
    read_handling s i bytes r =
      (((strsepAll bytes).filterMap (fun tok => parsedGuess tok.1)).foldl (eval_guess i) s, []) := by
  unfold read_handling
  simp only [hpos, hbuf, List.take_nil, List.nil_append, Nat.zero_add]
  generalize hgs : ((strsepAll bytes).filterMap (fun tok => parsedGuess tok.1)) = gs
  have hloop : decode_loop i r
      { s with clients := updateClient s.clients i (fun c =>
        { c with rbuf := bytes, rpos := c.rpos + bytes.length }) } (strsepAll bytes) =
      { state := { gs.foldl (eval_guess i) s with
          clients := updateClient (gs.foldl (eval_guess i) s).clients i (fun c =>
            { c with rbuf := bytes, rpos := c.rpos + bytes.length }) }
        sent := []
        ptr := none } := by
    have h1 := decode_loop_append_losing i r (strsepAll bytes) []
      { s with clients := updateClient s.clients i (fun c =>
          { c with rbuf := bytes, rpos := c.rpos + bytes.length }) } hlose
    rw [List.append_nil] at h1
    rw [h1, hgs, foldl_eval_guess_update i
      (fun c => { c with rbuf := bytes, rpos := c.rpos + bytes.length })
      (fun _ => rfl) (fun _ => rfl) (fun _ _ _ => rfl)]
    rfl
  rw [hloop]
  simp only
  rw [updateClient_updateClient]
  have hb := foldl_eval_guess_buf i gs i s
  rw [hpos, hbuf] at hb
  rw [updateClient_self]
  intro c hc
  have hlt : i < (gs.foldl (eval_guess i) s).clients.length := by
    by_contra hge
    rw [List.getElem?_eq_none (by omega)] at hc
    exact absurd hc (by simp)
  rw [getElem?_clients _ i hlt] at hc
  have hce := Option.some.inj hc
  rw [hce] at hb
  cases c
  simp only at hb
  simp [hb.1, hb.2]

/-- C7, as the code has it.  In a reachable state, when the bytes received on
the slot `i` in use are newline-terminated lines without a NUL byte, each of
them empty, free of digits, or a whole-line integer that fits an `int` and is
not the target, the read path evaluates exactly the integer lines, in order,
each as a non-winning guess (notice, then feedback), writes nothing directly,
and leaves the buffer empty; an empty or digit-free line is skipped with the
state untouched. -/
theorem complete_lines_chunk (s : State) (h : Reachable s) (i : Nat) (hact : s.active i)
    (r : Nat) (lines : List (List Char))
    (hchars : ∀ l ∈ lines, ∀ c ∈ l, c ≠ NL ∧ c ≠ NUL)
    (hkind : ∀ l ∈ lines, PlainLine s.target l) :
    read_handling s i (joinLines lines) r =
      ((lines.filterMap wholeInt).foldl (eval_guess i) s, []) ∧
    (∀ l p more, (l = [] ∨ ∀ c ∈ l, isdigit c = false) →
      decode_loop i r s ((l, p) :: more) = decode_loop i r s more) := by
  have hfresh := h.inv.2 i hact
  have htoks : strsepAll (joinLines lines) = lineTokens lines [] ++ [([], none)] := by
    have := strsepAll_joinLines lines [] hchars
    rw [List.append_nil] at this
    rw [this]
    rfl
  constructor
  · rw [read_handling_losing s i _ r hfresh.1 hfresh.2]
    · rw [htoks, List.filterMap_append, filterMap_lineTokens parsedGuess lines []]
      have hcongr : lines.filterMap parsedGuess = lines.filterMap wholeInt := by
        apply List.filterMap_congr
        intro l hl
        exact (parsedGuess_plainLine (hkind l hl)).1
      rw [hcongr]
      simp [parsedGuess]
    · intro tok htok
      rw [htoks] at htok
      rcases List.mem_append.1 htok with hm | hm
      · exact (parsedGuess_plainLine (hkind tok.1 (mem_lineTokens hm))).2
      · simp only [List.mem_singleton] at hm
        rw [hm]
        simp [parsedGuess]
  · intro l p more hl
    apply decode_loop_cons_skip
    have hplain : PlainLine s.target l := by
      rcases hl with hl | hl
      · exact Or.inl hl
      · exact Or.inr (Or.inl hl)
    have h1 := (parsedGuess_plainLine hplain).1
    rw [h1]
    rcases hl with hl | hl
    · subst hl; rfl
    · cases hw : wholeInt l with
      | none => rfl
      | some v =>
        obtain ⟨c, hc, hd⟩ := mem_of_integerPrefix (integerPrefix_of_wholeInt hw)
        rw [hl c hc] at hd
        exact absurd hd (by simp)

theorem complete_lines_chunk_witness :
    Reachable fullHouse ∧ fullHouse.active 0 ∧
    joinLines ["5".toList, "foo".toList, "7".toList] = "5\nfoo\n7\n".toList ∧
    ["5".toList, "foo".toList, "7".toList].filterMap wholeInt = [5, 7] ∧
    (read_handling fullHouse 0 (joinLines ["5".toList, "foo".toList, "7".toList]) 0 =
      ((["5".toList, "foo".toList, "7".toList].filterMap wholeInt).foldl
        (eval_guess 0) fullHouse, []) ∧
    (∀ l p more, (l = [] ∨ ∀ c ∈ l, isdigit c = false) →
      decode_loop 0 0 fullHouse ((l, p) :: more) = decode_loop 0 0 fullHouse more)) :=
  ⟨fullHouse_reachable, by decide, by decide, by decide,
    complete_lines_chunk fullHouse fullHouse_reachable 0 (by decide) 0
      ["5".toList, "foo".toList, "7".toList] (by decide)
      (by
        intro l hl
        simp only [List.mem_cons, List.mem_singleton, List.not_mem_nil, or_false] at hl
        rcases hl with rfl | rfl | rfl
        · exact Or.inr (Or.inr ⟨5, by decide, by decide⟩)
        · exact Or.inr (Or.inl (by decide))
        · exact Or.inr (Or.inr ⟨7, by decide, by decide⟩))⟩

/-- C7 as stated fails in two ways, shown with both seats taken and target 42.
A digit-free line that holds a NUL byte: the chunk made of the line `NUL` and
the line `7` has the integer line 7, yet the read path evaluates nothing
(`strsep` sees an empty string) and the state is unchanged.  An integer line
that does not fit an `int`: the line `4294967338` is a decimal integer other
than the target, yet it is stored as the guess 42 and the read path announces
a win, where the claim has a losing guess 4294967338 and nothing written
directly. -/
theorem complete_lines_counterexample :
    fullHouse.target = 42 ∧
    (∀ c ∈ [NUL], isdigit c = false) ∧
    wholeInt "7".toList = some 7 ∧
    joinLines [[NUL], "7".toList] = [NUL, NL, Char.ofNat 55, NL] ∧
    [[NUL], "7".toList].filterMap wholeInt = [7] ∧
    read_handling fullHouse 0 (joinLines [[NUL], "7".toList]) 0 = (fullHouse, []) ∧
    ([[NUL], "7".toList].filterMap wholeInt).foldl (eval_guess 0) fullHouse ≠ fullHouse ∧
    wholeInt "4294967338".toList = some 4294967338 ∧
    (∀ c ∈ "4294967338".toList, c ≠ NL ∧ c ≠ NUL) ∧
    joinLines ["4294967338".toList] = "4294967338\n".toList ∧
    parsedGuess "4294967338".toList = some 42 ∧
    (read_handling fullHouse 0 (joinLines ["4294967338".toList]) 0).2 =
      [(6, "Player 1 wins\nThe correct guessing is 42\n".toList),
       (5, "Player 1 wins\nThe correct guessing is 42\n".toList)] ∧
    read_handling fullHouse 0 (joinLines ["4294967338".toList]) 0 ≠
      ((["4294967338".toList].filterMap wholeInt).foldl (eval_guess 0) fullHouse, []) := by
  decide

/-! ## C9: the win transition -/

theorem map_fd_updateClient (cs : List Client) (i : Nat) (u : Client → Client)
    (hu : ∀ c, (u c).fd = c.fd) :
    (updateClient cs i u).map (fun c => c.fd) = cs.map (fun c => c.fd) := by
  unfold updateClient
  cases hc : cs[i]? with
  | none => rfl
  | some c =>
    simp only [List.map_set, hu]
    apply set_of_getElem?
    rw [List.getElem?_map, hc]
    rfl

theorem map_fd_broadcast (s : State) (msg : List Char) (e : Int) :
    (broadcast s msg e).clients.map (fun c => c.fd) = s.clients.map (fun c => c.fd) := by
  unfold broadcast
  simp only [List.map_map]
  apply List.map_congr_left
  intro c _
  simp only [Function.comp]
  split <;> rfl

theorem map_fd_eval_guess (i : Nat) (s : State) (g : Int) :
    (eval_guess i s g).clients.map (fun c => c.fd) = s.clients.map (fun c => c.fd) := by
  unfold eval_guess enqueue_feedback guess_notice
  simp only
  rw [map_fd_updateClient _ _ _ (by intro c; rfl), map_fd_broadcast]

theorem win_sends_eq (s : State) (w : List Char) :
    win_sends s w =
      ((s.clients.map (fun c => c.fd)).filter (fun x => decide (x ≠ -1))).map (fun x => (x, w)) := by
  unfold win_sends
  rw [List.filter_map, List.map_map]
  rfl

theorem win_sends_congr {s t : State} (w : List Char)
    (h : t.clients.map (fun c => c.fd) = s.clients.map (fun c => c.fd)) :
    win_sends t w = win_sends s w := by
  rw [win_sends_eq, win_sends_eq, h]

theorem eval_guess_ok {s : State} (h : Inv s) {i : Nat} (hact : s.active i) (g : Int) :
    Inv (eval_guess i s g) :=
  (h.broadcast_ok _ _).enqueue_feedback_ok (by rw [broadcast_fd]; exact hact) g

theorem eval_guess_fd (i : Nat) (s : State) (g : Int) (j : Nat) :
    ((eval_guess i s g).clientAt j).fd = (s.clientAt j).fd := by
  unfold eval_guess
  rw [enqueue_feedback_fd, guess_notice_fd]

theorem eval_guess_id (i : Nat) (s : State) (g : Int) (j : Nat) :
    ((eval_guess i s g).clientAt j).id = (s.clientAt j).id := by
  unfold eval_guess enqueue_feedback guess_notice
  rw [clientAt_update]
  split
  · rename_i hc
    rw [enqueue_message_id, hc.1, broadcast_id]
  · rw [broadcast_id]

/-- When some token is a guess equal to the target, the line loop ends in the
win branch, entered from a state `s1` that has the descriptors, ids, waiting
queue and target of the start state and satisfies the registry invariant. -/
theorem decode_loop_wins (i r : Nat) (toks : List (List Char × Option (List Char))) :
    ∀ s : State, Inv s → s.active i →
      (∃ tok ∈ toks, parsedGuess tok.1 = some s.target) →
      ∃ s1 : State, Inv s1 ∧ s1.max_players = s.max_players ∧ s1.waitq = s.waitq ∧
        s1.clients.map (fun c => c.fd) = s.clients.map (fun c => c.fd) ∧
        (s1.clientAt i).id = (s.clientAt i).id ∧
        (decode_loop i r s toks).state = reset_game s1 r ∧
        (decode_loop i r s toks).sent = win_sends s1 (msgWin (s1.clientAt i).id s.target) := by
  induction toks with
  | nil =>
    intro s _ _ hex
    obtain ⟨tok, htok, _⟩ := hex
    simp at htok
  | cons tok more ih =>
    intro s hI hact hex
    obtain ⟨line, p⟩ := tok
    cases hg : parsedGuess line with
    | none =>
      rw [decode_loop_cons_skip i r s line p more hg]
      apply ih s hI hact
      obtain ⟨tok, htok, hw⟩ := hex
      rcases List.mem_cons.1 htok with he | hm
      · rw [he] at hw
        simp only at hw
        rw [hg] at hw
        exact absurd hw (by simp)
      · exact ⟨tok, hm, hw⟩
    | some g =>
      by_cases hgt : g = s.target
      · subst hgt
        rw [decode_loop_cons_win i r s line p more hg]
        refine ⟨guess_notice s i s.target, hI.broadcast_ok _ _, rfl, rfl,
          map_fd_broadcast _ _ _, broadcast_id _ _ _ _, rfl, rfl⟩
      · rw [decode_loop_cons_lose i r s line p more g hg hgt]
        have hact' : (eval_guess i s g).active i := by
          unfold State.active
          rw [eval_guess_fd]
          exact hact
        have hex' : ∃ tok ∈ more, parsedGuess tok.1 = some (eval_guess i s g).target := by
          obtain ⟨tok, htok, hw⟩ := hex
          rcases List.mem_cons.1 htok with he | hm
          · rw [he] at hw
            simp only at hw
            rw [hg] at hw
            exact absurd (Option.some.inj hw) hgt
          · exact ⟨tok, hm, hw⟩
        obtain ⟨s1, h1, h2, h3, h4, h5, h6, h7⟩ := ih (eval_guess i s g) (eval_guess_ok hI hact g)
          hact' hex'
        refine ⟨s1, h1, h2, h3, ?_, ?_, h6, h7⟩
        · rw [h4, map_fd_eval_guess]
        · rw [h5, eval_guess_id]

/-- The read path when some line is a guess equal to the target: what is
written directly and the state that results. -/
theorem read_handling_win (s : State) (h : Reachable s) (i : Nat) (hact : s.active i)
    (bytes : List Char) (r : Nat)
    (hwin : ∃ tok ∈ strsepAll bytes, parsedGuess tok.1 = some s.target) :
    (read_handling s i bytes r).2 =
      (s.clients.filter (fun c => c.fd ≠ -1)).map
        (fun c => (c.fd, msgWin (s.clientAt i).id s.target)) ∧
    ((s.clientAt i).fd, msgWin (s.clientAt i).id s.target) ∈ (read_handling s i bytes r).2 ∧
    (∀ j, ((read_handling s i bytes r).1.clientAt j).fd = -1 ∧
          ((read_handling s i bytes r).1.clientAt j).wqueue = []) ∧
    (read_handling s i bytes r).1.avail_ids = (List.range s.max_players).map (fun k => k + 1) ∧
    (read_handling s i bytes r).1.max_players = s.max_players ∧
    (read_handling s i bytes r).1.waitq = s.waitq ∧
    (read_handling s i bytes r).1.target = ((r % SECRET_NUM_MAX : Nat) : Int) + 1 ∧
    1 ≤ (read_handling s i bytes r).1.target ∧ (read_handling s i bytes r).1.target ≤ 9999 := by
  obtain ⟨hI, hF⟩ := h.inv
  have hfresh := hF i hact
  have hilt : i < s.clients.length := lt_length_of_active hact
  have hI0 : Inv { s with clients := updateClient s.clients i (fun c =>
      { c with rbuf := bytes, rpos := c.rpos + bytes.length }) } :=
    hI.update_ok i _ (fun _ => rfl) (fun _ => rfl) (fun _ => rfl)
  have hact0 : State.active { s with clients := updateClient s.clients i (fun c =>
      { c with rbuf := bytes, rpos := c.rpos + bytes.length }) } i := by
    unfold State.active
    rw [clientAt_update]
    split
    · exact hact
    · exact hact
  obtain ⟨s1, h1, h2, h3, h4, h5, h6, h7⟩ :=
    decode_loop_wins i r (strsepAll bytes) _ hI0 hact0 hwin
  rw [map_fd_updateClient _ _ _ (by intro c; rfl)] at h4
  have h5' : (s1.clientAt i).id = (s.clientAt i).id := by
    rw [h5, clientAt_update]
    split
    · rfl
    · rfl
  have hsent : (read_handling s i bytes r).2 =
      win_sends s (msgWin (s.clientAt i).id s.target) := by
    unfold read_handling
    simp only [hfresh.1, hfresh.2, List.take_nil, List.nil_append]
    rw [h7, h5']
    exact win_sends_congr _ h4
  have hstate : ∃ u : Client → Client, (∀ c, (u c).fd = c.fd ∧ (u c).wqueue = c.wqueue) ∧
      (read_handling s i bytes r).1 =
        { reset_game s1 r with clients := updateClient (reset_game s1 r).clients i u } := by
    unfold read_handling
    simp only [hfresh.1, hfresh.2, List.take_nil, List.nil_append]
    rw [h6]
    exact ⟨_, fun c => by split <;> exact ⟨rfl, rfl⟩, rfl⟩
  obtain ⟨u, hu, hst⟩ := hstate
  have hat : ∀ j, ((read_handling s i bytes r).1.clientAt j).fd = -1 ∧
      ((read_handling s i bytes r).1.clientAt j).wqueue = [] := by
    intro j
    have hreset : ((reset_game s1 r).clientAt j).fd = -1 ∧
        ((reset_game s1 r).clientAt j).wqueue = [] :=
      ⟨reset_game_fd s1 r j, (h1.reset_game_ok r).idle j (reset_game_fd s1 r j)⟩
    have hreseti : ((reset_game s1 r).clientAt i).fd = -1 ∧
        ((reset_game s1 r).clientAt i).wqueue = [] :=
      ⟨reset_game_fd s1 r i, (h1.reset_game_ok r).idle i (reset_game_fd s1 r i)⟩
    rw [hst, clientAt_update]
    split
    · rw [(hu _).1, (hu _).2]; exact hreseti
    · exact hreset
  have htarget : (read_handling s i bytes r).1.target = ((r % SECRET_NUM_MAX : Nat) : Int) + 1 := by
    rw [hst]; rfl
  refine ⟨hsent, ?_, hat, ?_, ?_, ?_, htarget, ?_, ?_⟩
  · rw [hsent]
    unfold win_sends
    refine List.mem_map.2 ⟨s.clientAt i, List.mem_filter.2 ⟨?_, by simpa using hact⟩, rfl⟩
    exact List.getElem?_mem (getElem?_clients s i hilt)
  · rw [hst]
    show (List.range s1.max_players).map (fun k => k + 1) = _
    rw [h2]
  · rw [hst]; exact h2
  · rw [hst]; exact h3
  · rw [htarget]; simp only [SECRET_NUM_MAX]; omega
  · rw [htarget]; simp only [SECRET_NUM_MAX]; omega

/-- C9. In a reachable state, when the bytes read on the slot `i` in use hold
a line that is a guess equal to the target, the win text with the id of slot
`i` and the target is written directly once to every slot then in use, in slot
order, the winner's included; afterwards every slot is empty with an empty
outbound queue, the free-id stack is `1 .. max_players`, the waiting queue is
as before, and the target is `rand() % 9999 + 1`, a value in `1 .. 9999`. -/
theorem win_transition (s : State) (h : Reachable s) (i : Nat) (hact : s.active i)
    (bytes : List Char) (r : Nat)
    (hwin : ∃ tok ∈ strsepAll bytes, parsedGuess tok.1 = some s.target) :
    (read_handling s i bytes r).2 =
      (s.clients.filter (fun c => c.fd ≠ -1)).map
        (fun c => (c.fd, msgWin (s.clientAt i).id s.target)) ∧
    ((s.clientAt i).fd, msgWin (s.clientAt i).id s.target) ∈ (read_handling s i bytes r).2 ∧
    (∀ j, ((read_handling s i bytes r).1.clientAt j).fd = -1 ∧
          ((read_handling s i bytes r).1.clientAt j).wqueue = []) ∧
    (read_handling s i bytes r).1.avail_ids = (List.range s.max_players).map (fun k => k + 1) ∧
    (read_handling s i bytes r).1.max_players = s.max_players ∧
    (read_handling s i bytes r).1.waitq = s.waitq ∧
    (read_handling s i bytes r).1.target = ((r % SECRET_NUM_MAX : Nat) : Int) + 1 ∧
    1 ≤ (read_handling s i bytes r).1.target ∧ (read_handling s i bytes r).1.target ≤ 9999 :=
  read_handling_win s h i hact bytes r hwin

theorem win_transition_witness :
    Reachable fullHouseWaiting ∧ fullHouseWaiting.active 0 ∧
    (∃ tok ∈ strsepAll "7\n42\n5\n".toList, parsedGuess tok.1 = some fullHouseWaiting.target) ∧
    ((read_handling fullHouseWaiting 0 "7\n42\n5\n".toList 77).2 =
      (fullHouseWaiting.clients.filter (fun c => c.fd ≠ -1)).map
        (fun c => (c.fd, msgWin (fullHouseWaiting.clientAt 0).id fullHouseWaiting.target)) ∧
    ((fullHouseWaiting.clientAt 0).fd,
        msgWin (fullHouseWaiting.clientAt 0).id fullHouseWaiting.target) ∈
      (read_handling fullHouseWaiting 0 "7\n42\n5\n".toList 77).2 ∧
    (∀ j, ((read_handling fullHouseWaiting 0 "7\n42\n5\n".toList 77).1.clientAt j).fd = -1 ∧
          ((read_handling fullHouseWaiting 0 "7\n42\n5\n".toList 77).1.clientAt j).wqueue = []) ∧
    (read_handling fullHouseWaiting 0 "7\n42\n5\n".toList 77).1.avail_ids =
      (List.range fullHouseWaiting.max_players).map (fun k => k + 1) ∧
    (read_handling fullHouseWaiting 0 "7\n42\n5\n".toList 77).1.max_players =
      fullHouseWaiting.max_players ∧
    (read_handling fullHouseWaiting 0 "7\n42\n5\n".toList 77).1.waitq = fullHouseWaiting.waitq ∧
    (read_handling fullHouseWaiting 0 "7\n42\n5\n".toList 77).1.target =
      ((77 % SECRET_NUM_MAX : Nat) : Int) + 1 ∧
    1 ≤ (read_handling fullHouseWaiting 0 "7\n42\n5\n".toList 77).1.target ∧
    (read_handling fullHouseWaiting 0 "7\n42\n5\n".toList 77).1.target ≤ 9999) :=
  ⟨fullHouseWaiting_reachable, by decide, ⟨("42".toList, some "5\n".toList), by decide, by decide⟩,
    win_transition fullHouseWaiting fullHouseWaiting_reachable 0 (by decide) "7\n42\n5\n".toList 77
      ⟨("42".toList, some "5\n".toList), by decide, by decide⟩⟩

/-! ## C10: the winning line ends the chunk -/

theorem strsepAll_winning_chunk (preLines : List (List Char)) (L tail : List Char)
    (hchars : ∀ l ∈ preLines, ∀ c ∈ l, c ≠ NL ∧ c ≠ NUL) (hL : ∀ c ∈ L, c ≠ NL ∧ c ≠ NUL) :
    strsepAll (joinLines preLines ++ (L ++ NL :: tail)) =
      lineTokens preLines (L ++ NL :: tail) ++ (L, some tail) :: strsepAll tail := by
  rw [strsepAll_joinLines preLines _ hchars, strsepAll_line L tail hL]

/-- C10. Take a chunk made of lines `preLines`, none of them a guess equal to
the target, then a line `L` that is a guess equal to the target, then any
bytes `tail`.  The line loop run on the chunk from a state `s` evaluates the
guesses of `preLines`, reaching `s1`, and on `L` takes the win branch and
stops: its result is the notice for `L`, the direct sends of the win text and
`reset_game`, with `ptr` left at `tail`; no feedback is enqueued for `L` and
`tail` is not looked at.  When `s` is reachable and slot `i` in use, all that
the read path writes directly is the win text, once per slot in use, every
outbound queue is empty afterwards, and what is written, the slots'
descriptors and queues, the free ids, the waiting queue and the target are the
same whatever `tail` is. -/
theorem winning_line_ends_chunk (s : State) (h : Reachable s) (i : Nat) (hact : s.active i)
    (r : Nat) (preLines : List (List Char)) (L tail : List Char)
    (hchars : ∀ l ∈ preLines, ∀ c ∈ l, c ≠ NL ∧ c ≠ NUL) (hL : ∀ c ∈ L, c ≠ NL ∧ c ≠ NUL)
    (hpre : ∀ l ∈ preLines, parsedGuess l ≠ some s.target)
    (hwin : parsedGuess L = some s.target) :
    decode_loop i r s (strsepAll (joinLines preLines ++ (L ++ NL :: tail))) =
      win_result i r ((preLines.filterMap parsedGuess).foldl (eval_guess i) s) s.target
        (some tail) ∧
    (read_handling s i (joinLines preLines ++ (L ++ NL :: tail)) r).2 =
      (s.clients.filter (fun c => c.fd ≠ -1)).map
        (fun c => (c.fd, msgWin (s.clientAt i).id s.target)) ∧
    (∀ j, ((read_handling s i (joinLines preLines ++ (L ++ NL :: tail)) r).1.clientAt j
            ).wqueue = []) ∧
    (∀ tail2 : List Char,
      (read_handling s i (joinLines preLines ++ (L ++ NL :: tail2)) r).2 =
        (read_handling s i (joinLines preLines ++ (L ++ NL :: tail)) r).2 ∧
      (∀ j, ((read_handling s i (joinLines preLines ++ (L ++ NL :: tail2)) r).1.clientAt j).fd =
            ((read_handling s i (joinLines preLines ++ (L ++ NL :: tail)) r).1.clientAt j).fd ∧
          ((read_handling s i (joinLines preLines ++ (L ++ NL :: tail2)) r).1.clientAt j).wqueue =
            ((read_handling s i (joinLines preLines ++ (L ++ NL :: tail)) r).1.clientAt j
              ).wqueue) ∧
      (read_handling s i (joinLines preLines ++ (L ++ NL :: tail2)) r).1.avail_ids =
        (read_handling s i (joinLines preLines ++ (L ++ NL :: tail)) r).1.avail_ids ∧
      (read_handling s i (joinLines preLines ++ (L ++ NL :: tail2)) r).1.waitq =
        (read_handling s i (joinLines preLines ++ (L ++ NL :: tail)) r).1.waitq ∧
      (read_handling s i (joinLines preLines ++ (L ++ NL :: tail2)) r).1.target =
        (read_handling s i (joinLines preLines ++ (L ++ NL :: tail)) r).1.target) := by
  have hex : ∀ t : List Char,
      ∃ tok ∈ strsepAll (joinLines preLines ++ (L ++ NL :: t)), parsedGuess tok.1 = some s.target := by
    intro t
    rw [strsepAll_winning_chunk preLines L t hchars hL]
    exact ⟨(L, some t), by simp, hwin⟩
  have hw := fun t => read_handling_win s h i hact (joinLines preLines ++ (L ++ NL :: t)) r (hex t)
  refine ⟨?_, (hw tail).1, fun j => ((hw tail).2.2.1 j).2, ?_⟩
  · rw [strsepAll_winning_chunk preLines L tail hchars hL]
    rw [decode_loop_append_losing i r _ _ s (by
      intro tok htok
      exact hpre tok.1 (mem_lineTokens htok))]
    rw [filterMap_lineTokens parsedGuess preLines _]
    have ht := foldl_eval_guess_target i (preLines.filterMap parsedGuess) s
    rw [← ht] at hwin ⊢
    exact decode_loop_cons_win i r _ L (some tail) _ hwin
  · intro tail2
    obtain ⟨a1, _, a3, a4, _, a6, a7, _, _⟩ := hw tail
    obtain ⟨b1, _, b3, b4, _, b6, b7, _, _⟩ := hw tail2
    refine ⟨by rw [a1, b1], ?_, by rw [a4, b4], by rw [a6, b6], by rw [a7, b7]⟩
    intro j
    rw [(a3 j).1, (a3 j).2, (b3 j).1, (b3 j).2]
    exact ⟨rfl, rfl⟩

theorem winning_line_ends_chunk_witness :
    Reachable fullHouse ∧ fullHouse.active 0 ∧ parsedGuess "42".toList = some fullHouse.target ∧
    joinLines [] ++ ("42".toList ++ NL :: []) = "42\n".toList ∧
    (read_handling fullHouse 0 "42\n".toList 0).2 =
      [(6, "Player 1 wins\nThe correct guessing is 42\n".toList),
       (5, "Player 1 wins\nThe correct guessing is 42\n".toList)] ∧
    (decode_loop 0 0 fullHouse (strsepAll (joinLines [] ++ ("42".toList ++ NL :: []))) =
      win_result 0 0 ((([] : List (List Char)).filterMap parsedGuess).foldl (eval_guess 0)
        fullHouse) fullHouse.target (some []) ∧
    (read_handling fullHouse 0 (joinLines [] ++ ("42".toList ++ NL :: [])) 0).2 =
      (fullHouse.clients.filter (fun c => c.fd ≠ -1)).map
        (fun c => (c.fd, msgWin (fullHouse.clientAt 0).id fullHouse.target)) ∧
    (∀ j, ((read_handling fullHouse 0 (joinLines [] ++ ("42".toList ++ NL :: [])) 0).1.clientAt j
            ).wqueue = []) ∧
    (∀ tail2 : List Char,
      (read_handling fullHouse 0 (joinLines [] ++ ("42".toList ++ NL :: tail2)) 0).2 =
        (read_handling fullHouse 0 (joinLines [] ++ ("42".toList ++ NL :: [])) 0).2 ∧
      (∀ j,
        ((read_handling fullHouse 0 (joinLines [] ++ ("42".toList ++ NL :: tail2)) 0).1.clientAt
            j).fd =
          ((read_handling fullHouse 0 (joinLines [] ++ ("42".toList ++ NL :: [])) 0).1.clientAt
            j).fd ∧
        ((read_handling fullHouse 0 (joinLines [] ++ ("42".toList ++ NL :: tail2)) 0).1.clientAt
            j).wqueue =
          ((read_handling fullHouse 0 (joinLines [] ++ ("42".toList ++ NL :: [])) 0).1.clientAt
            j).wqueue) ∧
      (read_handling fullHouse 0 (joinLines [] ++ ("42".toList ++ NL :: tail2)) 0).1.avail_ids =
        (read_handling fullHouse 0 (joinLines [] ++ ("42".toList ++ NL :: [])) 0).1.avail_ids ∧
      (read_handling fullHouse 0 (joinLines [] ++ ("42".toList ++ NL :: tail2)) 0).1.waitq =
        (read_handling fullHouse 0 (joinLines [] ++ ("42".toList ++ NL :: [])) 0).1.waitq ∧
      (read_handling fullHouse 0 (joinLines [] ++ ("42".toList ++ NL :: tail2)) 0).1.target =
        (read_handling fullHouse 0 (joinLines [] ++ ("42".toList ++ NL :: [])) 0).1.target)) :=
  ⟨fullHouse_reachable, by decide, by decide, by decide, by decide,
    winning_line_ends_chunk fullHouse fullHouse_reachable 0 (by decide) 0 [] "42".toList []
      (by simp) (by decide) (by simp) (by decide)⟩

/-! ## C11: feedback for a wrong guess -/

theorem write_handling_flush_front (s : State) (i k : Nat) :
    write_handling s i k =
      { s with clients := updateClient s.clients i (fun c => flush_front c k) } := by
  unfold write_handling flush_front
  rfl

theorem server_texts_nonempty (id : Nat) (g : Int) :
    msgWelcome id ≠ [] ∧ msgJoined id ≠ [] ∧ msgDisconnected id ≠ [] ∧ msgGuessed id g ≠ [] ∧
    msgTooHigh g ≠ [] ∧ msgTooLow g ≠ [] ∧ msgWin id g ≠ [] := by
  refine ⟨?_, ?_, ?_, ?_, ?_, ?_, ?_⟩
  · simp [msgWelcome]
  · simp [msgJoined]
  · simp [msgDisconnected]
  · simp [msgGuessed]
  · simp [msgTooHigh]
  · simp [msgTooLow]
  · simp [msgWin]

theorem pending_append (q : List Message) (m : Message) :
    pending (q ++ [m]) = pending q ++ m.data.drop m.sent := by
  induction q with
  | nil => simp [pending]
  | cons a l ih => simp [pending, ih]

/-- What holds along the history of an outbound queue: the enqueued bytes are
the written bytes followed by the pending ones, and every queued message has
`len` bytes of data of which fewer than `len` are sent. -/
theorem queueRun_inv {c : Client} {w e : List Char} (h : QueueRun c w e) :
    e = w ++ pending c.wqueue ∧
    (∀ m ∈ c.wqueue, m.data.length = m.len ∧ m.sent < m.len) := by
  induction h with
  | start c h => rw [h]; exact ⟨rfl, by simp⟩
  | enqueue c w e m hm _ ih =>
    obtain ⟨he, hq⟩ := ih
    have hpos : 0 < m.length := List.length_pos.2 hm
    constructor
    · rw [enqueue_message_wqueue, pending_append, he]
      simp
    · intro x hx
      rw [enqueue_message_wqueue] at hx
      rcases List.mem_append.1 hx with hx | hx
      · exact hq x hx
      · simp only [List.mem_singleton] at hx
        rw [hx]
        exact ⟨rfl, hpos⟩
  | flush c w e msg rest k _ hq hk ih =>
    obtain ⟨he, hinv⟩ := ih
    obtain ⟨hlen, hlt⟩ := hinv msg (by rw [hq]; simp)
    have hbytes : sent_bytes c k = (msg.data.drop msg.sent).take k := by
      unfold sent_bytes
      rw [hq]
      simp only
      rw [List.take_take]
      congr 1
      omega
    by_cases hfull : msg.sent + k = msg.len
    · have hfl : (flush_front c k).wqueue = rest := by
        unfold flush_front
        rw [hq]
        simp [hfull]
      constructor
      · rw [hfl, hbytes, he, hq]
        simp only [pending, List.append_assoc]
        congr 2
        rw [List.take_of_length_le]
        rw [List.length_drop]
        omega
      · intro x hx
        rw [hfl] at hx
        exact hinv x (by rw [hq]; simp [hx])
    · have hfl : (flush_front c k).wqueue = { msg with sent := msg.sent + k } :: rest := by
        unfold flush_front
        rw [hq]
        simp [hfull]
      constructor
      · rw [hfl, hbytes, he, hq]
        simp only [pending, List.append_assoc]
        congr 1
        rw [← List.append_assoc]
        congr 1
        rw [← List.drop_drop, List.take_append_drop]
      · intro x hx
        rw [hfl] at hx
        rcases List.mem_cons.1 hx with hx | hx
        · rw [hx]
          exact ⟨hlen, by show msg.sent + k < msg.len; omega⟩
        · exact hinv x (by rw [hq]; simp [hx])

/-- C12. Along every history of the outbound queue of one connection (texts
enqueued, writes accepting `k` bytes of what is left of the front message):
the bytes written are a prefix of the bytes enqueued, in enqueue order, the
rest being exactly what is pending in the queue; every queued message has
`sent ≤ len`; once as many bytes are written as were enqueued the queue is
empty and the written stream is the enqueued one; and a write moves the front
cursor from `sent` to `sent + k ≤ len`, puts the `k` bytes at `data + sent` on
the wire, and removes the front message exactly when `sent + k = len`. -/
theorem outbound_queue_in_order (c : Client) (w e : List Char) (h : QueueRun c w e) :
    w <+: e ∧ e = w ++ pending c.wqueue ∧
    (∀ m ∈ c.wqueue, m.sent ≤ m.len) ∧
    (w.length = e.length → c.wqueue = [] ∧ w = e) ∧
    (∀ msg rest k, c.wqueue = msg :: rest → k ≤ msg.len - msg.sent →
      msg.sent ≤ msg.sent + k ∧ msg.sent + k ≤ msg.len ∧
      ((flush_front c k).wqueue = rest ↔ msg.sent + k = msg.len) ∧
      (msg.sent + k ≠ msg.len →
        (flush_front c k).wqueue = { msg with sent := msg.sent + k } :: rest) ∧
      sent_bytes c k = (msg.data.drop msg.sent).take k ∧ (sent_bytes c k).length = k) := by
  obtain ⟨he, hinv⟩ := queueRun_inv h
  refine ⟨⟨pending c.wqueue, he.symm⟩, he, fun m hm => Nat.le_of_lt (hinv m hm).2, ?_, ?_⟩
  · intro hlen
    have hp : (pending c.wqueue).length = 0 := by
      have := congrArg List.length he
      rw [List.length_append] at this
      omega
    cases hq : c.wqueue with
    | nil =>
      refine ⟨rfl, ?_⟩
      rw [he, hq]
      simp [pending]
    | cons m ms =>
      exfalso
      obtain ⟨h1, h2⟩ := hinv m (by rw [hq]; simp)
      rw [hq] at hp
      simp only [pending, List.length_append, List.length_drop] at hp
      omega
  · intro msg rest k hq hk
    obtain ⟨hlen, hlt⟩ := hinv msg (by rw [hq]; simp)
    have hbytes : sent_bytes c k = (msg.data.drop msg.sent).take k := by
      unfold sent_bytes
      rw [hq]
      simp only
      rw [List.take_take]
      congr 1
      omega
    refine ⟨by omega, by omega, ?_, ?_, hbytes, ?_⟩
    · constructor
      · intro hfl
        by_contra hne
        unfold flush_front at hfl
        rw [hq] at hfl
        simp only [if_neg hne] at hfl
        have := congrArg List.length hfl
        simp at this
      · intro hfull
        unfold flush_front
        rw [hq]
        simp [hfull]
    · intro hne
      unfold flush_front
      rw [hq]
      simp [hne]
    · rw [hbytes, List.length_take, List.length_drop]
      omega

theorem outbound_queue_in_order_witness :
    QueueRun (flush_front (enqueue_message Client.blank "Hi\n".toList "Hi\n".toList.length) 2)
      ([] ++ sent_bytes (enqueue_message Client.blank "Hi\n".toList "Hi\n".toList.length) 2)
      ([] ++ "Hi\n".toList) ∧
    ([] ++ sent_bytes (enqueue_message Client.blank "Hi\n".toList "Hi\n".toList.length) 2)
      = "Hi".toList ∧
    (([] ++ sent_bytes (enqueue_message Client.blank "Hi\n".toList "Hi\n".toList.length) 2)
        <+: ([] ++ "Hi\n".toList)) :=
  ⟨.flush _ _ _ { data := "Hi\n".toList, len := 3, sent := 0 } [] 2
      (.enqueue _ _ _ _ (by decide) (.start Client.blank rfl)) (by decide) (by decide),
    by decide,
    (outbound_queue_in_order _ _ _
      (.flush _ _ _ { data := "Hi\n".toList, len := 3, sent := 0 } [] 2
        (.enqueue _ _ _ _ (by decide) (.start Client.blank rfl)) (by decide) (by decide))).1⟩

/-! ## C13: validation of `max-players` -/

theorem main_arguments_negative (v : Int) (hlo : -2147483648 ≤ v) (hneg : v < 0) :
    main_arguments 4 8080 v = .allocates (to_unsigned v) ∧ 2147483648 ≤ to_unsigned v := by
  have hbig : 2147483648 ≤ to_unsigned v := by
    unfold to_unsigned
    omega
  refine ⟨?_, hbig⟩
  unfold main_arguments
  rw [if_neg (by decide), if_neg (by decide), if_neg (by omega)]

/-- C13 on the code.  With four arguments and port 8080, the values 0 and 1 of
`max-players` end in the failure exit of the check, but -1 does not: stored in
the `unsigned max_players` it is 4294967295, the test `max_players <= 1` is
false and `main` goes on to allocate a registry of that size.  The same
happens for -5 and for the smallest `int`. -/
theorem negative_max_players_passes_check :
    main_arguments 4 8080 0 = .players_failure ∧
    main_arguments 4 8080 1 = .players_failure ∧
    to_unsigned (-1) = 4294967295 ∧
    main_arguments 4 8080 (-1) = .allocates 4294967295 ∧
    main_arguments 4 8080 (-5) = .allocates 4294967291 ∧
    main_arguments 4 8080 (-2147483648) = .allocates 2147483648 := by
  decide

/-! ## C14: where the terminator is written -/

theorem recv_full_buffer_enabled (s : State) (h : Reachable s) (i : Nat)
    (hi : i < s.max_players) (hact : s.active i) (bytes : List Char) (r : Nat)
    (hn : bytes.length = MAX_LINE - (s.clientAt i).rpos) :
    (Event.recvData i bytes r).enabled s ∧
    terminator_index (s.clientAt i) bytes.length = MAX_LINE := by
  have hfresh := h.inv.2 i hact
  have hlen : bytes.length = MAX_LINE := by rw [hn, hfresh.1]; rfl
  refine ⟨⟨hi, hact, ?_, ?_⟩, ?_⟩
  · rw [hlen]; decide
  · rw [hn]
  · unfold terminator_index
    rw [hfresh.1, hlen]
    simp

/-- C14 on the code.  With both seats taken, slot 0 has `rpos = 0`, so `recv`
is asked for `MAX_LINE - 0 = 1024` bytes; when the peer has sent that many the
read is one the loop performs, and the terminator is then written at index
`0 + 1024 = MAX_LINE`, which is not below `MAX_LINE`: one byte past the end of
`rbuf`.  For 1023 bytes the index is the last valid one. -/
theorem terminator_index_past_buffer :
    Reachable fullHouse ∧ fullHouse.active 0 ∧ (fullHouse.clientAt 0).rpos = 0 ∧
    (List.replicate 1024 (Char.ofNat 97)).length = MAX_LINE - (fullHouse.clientAt 0).rpos ∧
    (Event.recvData 0 (List.replicate 1024 (Char.ofNat 97)) 0).enabled fullHouse ∧
    terminator_index (fullHouse.clientAt 0) (List.replicate 1024 (Char.ofNat 97)).length
      = MAX_LINE ∧
    ¬ (terminator_index (fullHouse.clientAt 0) (List.replicate 1024 (Char.ofNat 97)).length
      < MAX_LINE) ∧
    terminator_index (fullHouse.clientAt 0) 1023 = MAX_LINE - 1 := by
  have hlen : (List.replicate 1024 (Char.ofNat 97)).length = MAX_LINE - (fullHouse.clientAt 0).rpos := by
    rw [List.length_replicate]
    decide
  have h := recv_full_buffer_enabled fullHouse fullHouse_reachable 0 (by decide) (by decide)
    (List.replicate 1024 (Char.ofNat 97)) 0 hlen
  refine ⟨fullHouse_reachable, by decide, by decide, hlen, h.1, h.2, ?_, by decide⟩
  rw [h.2]
  exact Nat.lt_irrefl _

/-! ## C15: waiting peers and free slots -/

/-- C15 on the code.  From the reachable state with both seats taken and
descriptors 7 and 8 waiting (free-id stack empty), player 1 sends the target
`42`: after the win reset the waiting queue is still `[7, 8]` while both ids
are free, because `reset_game` does not call `promote_waiting`.  The next
accepted descriptor 9 is then given id 2 at once, ahead of 7 and 8, which stay
in the waiting queue. -/
theorem waiting_peers_skipped_after_win :
    Reachable fullHouseWaiting ∧
    fullHouseWaiting.waitq = [7, 8] ∧ fullHouseWaiting.avail_ids = [] ∧
    fullHouseWaiting.target = 42 ∧
    (Event.recvData 0 "42\n".toList 77).enabled fullHouseWaiting ∧
    Reachable (step fullHouseWaiting (.recvData 0 "42\n".toList 77)) ∧
    (step fullHouseWaiting (.recvData 0 "42\n".toList 77)).waitq = [7, 8] ∧
    (step fullHouseWaiting (.recvData 0 "42\n".toList 77)).avail_ids = [1, 2] ∧
    (step fullHouseWaiting (.recvData 0 "42\n".toList 77)).clients.map (fun c => c.fd)
      = [-1, -1] ∧
    Reachable (step (step fullHouseWaiting (.recvData 0 "42\n".toList 77)) (.accept 9)) ∧
    (step (step fullHouseWaiting (.recvData 0 "42\n".toList 77)) (.accept 9)).clients.map
      (fun c => (c.fd, c.id)) = [(-1, 1), (9, 2)] ∧
    (step (step fullHouseWaiting (.recvData 0 "42\n".toList 77)) (.accept 9)).waitq = [7, 8] ∧
    (step (step fullHouseWaiting (.recvData 0 "42\n".toList 77)) (.accept 9)).avail_ids = [1] :=
  ⟨fullHouseWaiting_reachable, by decide, by decide, by decide, by decide,
    .next _ _ fullHouseWaiting_reachable (by decide), by decide, by decide, by decide,
    .next _ _ (.next _ _ fullHouseWaiting_reachable (by decide)) (by decide),
    by decide, by decide, by decide⟩

end GameServer
